import Mathlib

set_option maxRecDepth 40000

/-!
Verification of the text pipeline of the Singlish chatbot ML service:
the preprocessor (`utils/preprocessing.py`), the language classifier
(`models/singlish_classifier.py`), the intent detector
(`models/intent_detector.py`) and the response generator
(`models/response_generator.py`).

Python strings are embedded as `List Char`; every string operation the
code uses (`str.lower`, `str.strip`, `str.split`, `str.replace`,
`str.join`, the two regexes, substring tests) is given an executable
model below.  Rational numbers stand in for Python floats: every
comparison the code performs is between short decimal sums far from the
binary-rounding boundaries, so the decisions coincide.
-/

/-! ## Python string primitives -/

/-- Whitespace characters recognised by Python's `str.split`, `str.strip`
and the regex `\s` for the inputs of this service. -/
def isPySpace (c : Char) : Bool :=
  c = ' ' || c = '\t' || c = '\n' || c = '\r'

theorem dropWhile_length_le {α : Type} (p : α → Bool) (l : List α) :
    (l.dropWhile p).length ≤ l.length :=
  (List.dropWhile_sublist p).length_le

/-- ASCII model of Python `str.lower`: `Char.toLower` character by
character. -/
def pyLower (s : List Char) : List Char :=
  s.map Char.toLower

/-- Drop trailing whitespace. -/
def dropTrailing (s : List Char) : List Char :=
  (s.reverse.dropWhile isPySpace).reverse

/-- Python `str.strip()`: remove leading and trailing whitespace. -/
def pyStrip (s : List Char) : List Char :=
  dropTrailing (s.dropWhile isPySpace)

/-- Fuel-driven worker for `pySplit` (structural recursion so that the
kernel can evaluate it; the fuel never runs out when it starts at the
length of the string). -/
def pySplitFuel : Nat → List Char → List (List Char)
  | 0, _ => []
  | fuel + 1, s =>
    match s with
    | [] => []
    | c :: rest =>
      if isPySpace c then pySplitFuel fuel rest
      else (c :: rest.takeWhile (fun d => !isPySpace d)) ::
        pySplitFuel fuel (rest.dropWhile (fun d => !isPySpace d))

/-- Python `str.split()` with no argument: split on whitespace runs,
discarding empty pieces. -/
def pySplit (s : List Char) : List (List Char) :=
  pySplitFuel s.length s

/-- Python `' '.join(words)`. -/
def joinSpace : List (List Char) → List Char
  | [] => []
  | [w] => w
  | w :: ws => w ++ ' ' :: joinSpace ws

/-- Fuel-driven worker for `collapseWS`. -/
def collapseWSFuel : Nat → List Char → List Char
  | 0, _ => []
  | fuel + 1, s =>
    match s with
    | [] => []
    | c :: rest =>
      if isPySpace c then ' ' :: collapseWSFuel fuel (rest.dropWhile isPySpace)
      else c :: collapseWSFuel fuel rest

/-- `re.sub(r'\s+', ' ', s)`: collapse each whitespace run to a single
space. -/
def collapseWS (s : List Char) : List Char :=
  collapseWSFuel s.length s

/-- Fuel-driven worker for `pyReplace`. -/
def pyReplaceFuel : Nat → List Char → List Char → List Char → List Char
  | 0, s, _, _ => s
  | fuel + 1, s, old, new =>
    match s with
    | [] => []
    | c :: rest =>
      if old ≠ [] ∧ old.isPrefixOf (c :: rest) then
        new ++ pyReplaceFuel fuel ((c :: rest).drop old.length) old new
      else
        c :: pyReplaceFuel fuel rest old new

/-- Python `str.replace(old, new)`: left-to-right, non-overlapping
replacement of every occurrence. -/
def pyReplace (s old new : List Char) : List Char :=
  pyReplaceFuel s.length s old new

/-- Python's substring test `sub in s`. -/
def hasSub (s sub : List Char) : Bool :=
  match s with
  | [] => sub.isEmpty
  | _ :: rest => sub.isPrefixOf s || hasSub rest sub

/-- ASCII model of the regex class `\w` (letters, digits, underscore). -/
def isWordChar (c : Char) : Bool :=
  (48 ≤ c.toNat && c.toNat ≤ 57) || (65 ≤ c.toNat && c.toNat ≤ 90) ||
  (97 ≤ c.toNat && c.toNat ≤ 122) || c.toNat = 95

/-! ## Preprocessor (`utils/preprocessing.py`, class `SinglishPreprocessor`) -/

/-- Convert a table written with string literals to the `List Char`
representation used by the embedding. -/
def strPairs (l : List (String × String)) : List (List Char × List Char) :=
  l.map (fun p => (p.1.data, p.2.data))

/-- `self.singlish_mappings` from `SinglishPreprocessor.__init__`
(the source dict literal repeats the key `lidis`; both entries carry the
same value, so first-match lookup agrees with the dict). -/
def singlishMappings : List (List Char × List Char) := strPairs [
  ("lah", ""), ("lor", ""), ("meh", ""), ("sia", ""),
  ("what", "what"), ("liddat", "like that"), ("lidat", "like that"),
  ("lidis", "like this"), ("lidis", "like this"),
  ("macam", "like"), ("machai", "friend"), ("machan", "friend"),
  ("nangi", "sister"), ("akka", "sister"), ("aiya", "oh no"),
  ("aiyo", "oh no"), ("wah", "wow"), ("shiok", "nice"),
  ("steady", "good"), ("chio", "beautiful"), ("blur", "confused"),
  ("sian", "bored"), ("jialat", "terrible"), ("buay", "cannot"),
  ("tahan", "endure"), ("paiseh", "embarrassed"),
  ("kiasu", "afraid to lose"), ("kiasi", "afraid to die"),
  ("bojio", "didnt invite"), ("chope", "reserve"), ("lepak", "relax"),
  ("makan", "eat"), ("tapao", "takeaway"), ("tabao", "takeaway"),
  ("chit chat", "chat"), ("ang moh", "westerner"), ("mata", "police"),
  ("kena", "got"), ("cannot", "cannot"), ("can", "can"),
  ("got", "have"), ("never", "didnt"), ("already", "already"),
  ("then", "then"), ("also", "also"), ("still", "still"),
  ("very", "very"), ("so", "so"), ("like", "like"), ("want", "want"),
  ("dont want", "dont want"), ("no need", "no need"), ("need", "need"),
  ("must", "must"), ("confirm", "confirm"), ("sure", "sure"),
  ("really", "really"), ("actually", "actually"), ("maybe", "maybe"),
  ("definitely", "definitely"), ("probably", "probably")]

/-- `self.sinhala_romanized` from `SinglishPreprocessor.__init__`. -/
def sinhalaRomanized : List (List Char × List Char) := strPairs [
  ("kohomada", "how are you"), ("kohomadha", "how are you"),
  ("kohomda", "how are you"), ("kohoma", "how"), ("oyage", "your"),
  ("mage", "my"), ("nama", "name"), ("mama", "i"), ("oya", "you"),
  ("api", "we"), ("mokakda", "what"), ("mokak", "what"),
  ("kawda", "who"), ("koheda", "where"), ("kiyada", "how much"),
  ("kiyanne", "saying"), ("karanne", "doing"), ("yanne", "going"),
  ("enawa", "coming"), ("hari", "good"), ("honda", "good"),
  ("naha", "no"), ("ow", "yes"), ("mata", "me"), ("giya", "went"),
  ("awa", "came"), ("kanna", "eat"), ("bonawa", "drink"),
  ("balanna", "see"), ("ahanna", "listen"), ("katha", "talk"),
  ("help", "help"), ("karanna", "do"), ("denne", "give"),
  ("ganna", "take"), ("therenne", "know"), ("dannawa", "know"),
  ("adare", "love"), ("stuti", "thanks"), ("stutiyi", "thanks"),
  ("bohoma", "very"), ("godak", "very"), ("tikak", "little"),
  ("loku", "big"), ("podi", "small"), ("rassai", "delicious"),
  ("watinawa", "important"), ("lassana", "beautiful"),
  ("hodai", "good"), ("naraka", "bad"), ("baya", "scared"),
  ("ussai", "tall"), ("pathal", "low"), ("mal", "flowers"),
  ("gas", "tree"), ("pala", "fruit"), ("bath", "rice"),
  ("curry", "curry"), ("kiri", "milk"), ("thee", "tea"),
  ("kopi", "coffee"), ("watura", "water"), ("ira", "sun"),
  ("handa", "moon"), ("tharu", "star"), ("gaha", "tree"),
  ("mala", "flower"), ("wassa", "rain"), ("wata", "wind")]

/-- `self.contraction_mapping` from `SinglishPreprocessor.__init__`. -/
def contractionMapping : List (List Char × List Char) := strPairs [
  ("ain't", "is not"), ("aren't", "are not"), ("can't", "cannot"),
  ("couldn't", "could not"), ("didn't", "did not"),
  ("doesn't", "does not"), ("don't", "do not"), ("hadn't", "had not"),
  ("hasn't", "has not"), ("haven't", "have not"), ("he'd", "he would"),
  ("he'll", "he will"), ("he's", "he is"), ("i'd", "i would"),
  ("i'll", "i will"), ("i'm", "i am"), ("i've", "i have"),
  ("isn't", "is not"), ("it'd", "it would"), ("it'll", "it will"),
  ("it's", "it is"), ("let's", "let us"), ("shouldn't", "should not"),
  ("that's", "that is"), ("there's", "there is"),
  ("they'd", "they would"), ("they'll", "they will"),
  ("they're", "they are"), ("they've", "they have"),
  ("we'd", "we would"), ("we're", "we are"), ("we've", "we have"),
  ("weren't", "were not"), ("what's", "what is"),
  ("where's", "where is"), ("who's", "who is"), ("won't", "will not"),
  ("wouldn't", "would not"), ("you'd", "you would"),
  ("you'll", "you will"), ("you're", "you are"),
  ("you've", "you have")]

/-- The particle list tested inside `_process_singlish_terms`. -/
def particleList : List (List Char) :=
  (["lah", "lor", "meh", "sia", "leh", "hor", "ah"] : List String).map
    String.data

/-- `SinglishPreprocessor._expand_contractions`: fold `str.replace` over
the contraction table in insertion order. -/
def expandContractions (s : List Char) : List Char :=
  contractionMapping.foldl (fun t p => pyReplace t p.1 p.2) s

/-- `SinglishPreprocessor._process_singlish_terms`: token by token, drop
particles, replace mapped terms (an empty mapping drops the token),
keep everything else. -/
def processSinglishTerms (s : List Char) : List Char :=
  joinSpace ((pySplit s).filterMap (fun w =>
    if w ∈ particleList then none
    else
      match singlishMappings.lookup w with
      | some m => if m.isEmpty then none else some m
      | none => some w))

/-- `SinglishPreprocessor._process_sinhala_terms`: token by token,
replace romanized-Sinhala words with their gloss. -/
def processSinhalaTerms (s : List Char) : List Char :=
  joinSpace ((pySplit s).map (fun w =>
    match sinhalaRomanized.lookup w with
    | some m => m
    | none => w))

/-- Characters kept by `re.sub(r'[^\w\s\?\!]', '', text)`. -/
def keepChar (c : Char) : Bool :=
  isWordChar c || isPySpace c || c = '?' || c = '!'

/-- `re.sub(r'[\?\!]{2,}', '?', text)`: each maximal run of two or more
`?`/`!` characters becomes a single `?`. -/
def isPunctQE (c : Char) : Bool := c = '?' || c = '!'

def punctCollapseFuel : Nat → List Char → List Char
  | 0, _ => []
  | fuel + 1, s =>
    match s with
    | [] => []
    | [c] => [c]
    | c :: d :: rest =>
      if isPunctQE c then
        if isPunctQE d then
          '?' :: punctCollapseFuel fuel ((d :: rest).dropWhile isPunctQE)
        else c :: punctCollapseFuel fuel (d :: rest)
      else c :: punctCollapseFuel fuel (d :: rest)

def punctCollapse (s : List Char) : List Char :=
  punctCollapseFuel s.length s

/-- `SinglishPreprocessor._clean_punctuation`. -/
def cleanPunctuation (s : List Char) : List Char :=
  punctCollapse (s.filter keepChar)

/-- The seven statements inside the `try:` block of
`SinglishPreprocessor.process`, in source order.  Stage 0 is
`text.lower().strip()`, stage 1 the whitespace collapse, stages 2-5 the
four helper passes, stage 6 the final `strip`. -/
def processStage : Nat → List Char → List Char
  | 0, t => pyStrip (pyLower t)
  | 1, t => collapseWS t
  | 2, t => expandContractions t
  | 3, t => processSinglishTerms t
  | 4, t => processSinhalaTerms t
  | 5, t => cleanPunctuation t
  | 6, t => pyStrip t
  | _, t => t

/-- Value of the rebound local `text` after the first `n` stages. -/
def runStages : Nat → List Char → List Char
  | 0, t => t
  | n + 1, t => processStage n (runStages n t)

/-- `SinglishPreprocessor.process` on the non-exceptional path. -/
def process (t : List Char) : List Char :=
  runStages 7 t

/-- `SinglishPreprocessor.process` under the exception semantics of its
`try`/`except`: if the stage numbered `i` raises, the local `text` still
holds the output of stages `0..i-1`, and the handler returns
`text.lower().strip()` applied to that intermediate value.  `failAt =
none` is the normal, exception-free execution. -/
def processFaulty (failAt : Option Nat) (t : List Char) : List Char :=
  match failAt with
  | none => process t
  | some i => if i < 7 then pyStrip (pyLower (runStages i t)) else process t

/-- Convert a list of string literals to `List Char` form. -/
def strList (l : List String) : List (List Char) := l.map String.data

/-- The feature dict built by `SinglishPreprocessor.extract_features`.
`language_mix` is built in Python as `list(set(...))`, whose iteration
order is unspecified; it is modelled in the canonical order
english/sinhala/singlish — only the underlying set is observable. -/
structure FeatureSet where
  length : Nat
  wordCount : Nat
  hasQuestion : Bool
  hasExclamation : Bool
  hasSinglishParticles : Bool
  hasSinhalaTerms : Bool
  hasEnglishContractions : Bool
  singlishIntensity : ℚ
  languageMix : List String
deriving Repr, DecidableEq

/-- `SinglishPreprocessor._calculate_singlish_intensity`. -/
def calculateSinglishIntensity (text : List Char) : ℚ :=
  let ws := pySplit (pyLower text)
  if ws = [] then 0
  else
    mkRat ((ws.filter (fun w => (singlishMappings.lookup w).isSome ||
      (sinhalaRomanized.lookup w).isSome)).length) ws.length

/-- `SinglishPreprocessor._detect_language_mix`. -/
def detectLanguageMix (text : List Char) : List String :=
  ["english"] ++
  (if (pySplit (pyLower text)).any
      (fun w => (sinhalaRomanized.lookup w).isSome) then ["sinhala"]
    else []) ++
  (if (pySplit (pyLower text)).any
      (fun w => (singlishMappings.lookup w).isSome) then ["singlish"]
    else [])

/-- `SinglishPreprocessor.extract_features` (note the source checks only
the four particles `lah`/`lor`/`meh`/`sia` here, and all its membership
tests are substring tests on the lowercased text). -/
def extractFeatures (text : List Char) : FeatureSet :=
  { length := text.length
    wordCount := (pySplit text).length
    hasQuestion := hasSub text ("?".data)
    hasExclamation := hasSub text ("!".data)
    hasSinglishParticles := (strList ["lah", "lor", "meh", "sia"]).any
      (fun p => hasSub (pyLower text) p)
    hasSinhalaTerms := sinhalaRomanized.any
      (fun q => hasSub (pyLower text) q.1)
    hasEnglishContractions := contractionMapping.any
      (fun q => hasSub (pyLower text) q.1)
    singlishIntensity := calculateSinglishIntensity text
    languageMix := detectLanguageMix text }

/-- The `normalize(text) → (canonical, features)` contract of the
specification: the preprocessor's `process` together with
`extract_features`. -/
def normalizeText (text : List Char) : List Char × FeatureSet :=
  (process text, extractFeatures text)

/-! ## Language classifier (`models/singlish_classifier.py`) -/

/-- `singlish_markers['particles']`. -/
def markerParticles : List (List Char) :=
  strList ["lah", "lor", "meh", "sia", "leh", "hor", "ah"]

/-- `singlish_markers['sinhala_words']`. -/
def markerSinhalaWords : List (List Char) :=
  strList ["kohomada", "mama", "oya", "nama", "mokakda"]

/-- `singlish_markers['grammar_patterns']`. -/
def markerGrammarPatterns : List (List Char) :=
  strList ["got", "never", "already", "still", "also"]

/-- `singlish_markers['expressions']`. -/
def markerExpressions : List (List Char) :=
  strList ["aiyo", "wah", "shiok", "steady", "chio"]

/-- One marker loop of `_calculate_singlish_score`: add `w` to the
accumulator for every marker that occurs as a substring. -/
def markerLoop (text : List Char) (w : ℚ) (markers : List (List Char))
    (s : ℚ) : ℚ :=
  markers.foldl (fun acc m => if hasSub text m then acc + w else acc) s

/-- `SinglishClassifier._calculate_singlish_score`. -/
def calculateSinglishScore (text : List Char) : ℚ :=
  if pySplit text = [] then 0
  else
    min (markerLoop text (mkRat 3 10) markerExpressions
          (markerLoop text (mkRat 1 5) markerGrammarPatterns
            (markerLoop text (mkRat 2 5) markerSinhalaWords
              (markerLoop text (mkRat 3 10) markerParticles 0)))) 1

/-- `SinglishClassifier._contains_sinhala`. -/
def containsSinhala (text : List Char) : Bool :=
  (strList ["kohomada", "oyage", "mage", "mama", "oya"]).any
    (fun m => hasSub text m)

/-- Result record of `SinglishClassifier.classify`. -/
structure LangResult where
  classification : String
  confidence : ℚ
  singlishScore : ℚ
deriving Repr, DecidableEq

/-- `SinglishClassifier.classify` (its feature dict is side-effect free
and not constrained by any claim, so only the three decision fields are
modelled). -/
def classifyLanguage (text : List Char) : LangResult :=
  let tl := pyLower text
  let s := calculateSinglishScore tl
  if mkRat 3 10 < s then ⟨"singlish", min s 1, s⟩
  else if containsSinhala tl then ⟨"sinhala_romanized", mkRat 4 5, s⟩
  else ⟨"english", 1 - s, s⟩

/-- The scoring formula exactly as the specification sentence of claim
C1 words it: the category weight is added once per category in which at
least one marker occurs, then the sum is clamped to 1. -/
def specScoreC1 (text : List Char) : ℚ :=
  min ((if markerParticles.any (fun m => hasSub text m) then mkRat 3 10 else 0) +
       (if markerSinhalaWords.any (fun m => hasSub text m) then mkRat 2 5 else 0) +
       (if markerGrammarPatterns.any (fun m => hasSub text m) then mkRat 1 5 else 0) +
       (if markerExpressions.any (fun m => hasSub text m) then mkRat 3 10 else 0)) 1

/-- The decision rule of claim C1 applied to the claim's per-category
score. -/
def specClassifyC1 (text : List Char) : LangResult :=
  let tl := pyLower text
  let s := specScoreC1 tl
  if mkRat 3 10 < s then ⟨"singlish", s, s⟩
  else if containsSinhala tl then ⟨"sinhala_romanized", mkRat 4 5, s⟩
  else ⟨"english", 1 - s, s⟩

/-- The amended scoring formula: the category weight is added once per
marker (not once per category) that occurs as a substring, then the sum
is clamped to 1. -/
def amendedScoreC1 (text : List Char) : ℚ :=
  min (((markerParticles.filter (fun m => hasSub text m)).length : ℚ) * mkRat 3 10 +
       ((markerSinhalaWords.filter (fun m => hasSub text m)).length : ℚ) * mkRat 2 5 +
       ((markerGrammarPatterns.filter (fun m => hasSub text m)).length : ℚ) * mkRat 1 5 +
       ((markerExpressions.filter (fun m => hasSub text m)).length : ℚ) * mkRat 3 10) 1

/-- The decision rule of claim C1 applied to the amended per-marker
score. -/
def amendedClassifyC1 (text : List Char) : LangResult :=
  let tl := pyLower text
  let s := amendedScoreC1 tl
  if mkRat 3 10 < s then ⟨"singlish", s, s⟩
  else if containsSinhala tl then ⟨"sinhala_romanized", mkRat 4 5, s⟩
  else ⟨"english", 1 - s, s⟩

/-! ## Fuzzy string similarity

`_rule_based_predict` calls `fuzz.ratio` from the external `fuzzywuzzy`
library.  Modelled from that library (it is a dependency, not part of
this repository): the similarity of two strings is
`round(100 · (len₁+len₂ − dist) / (len₁+len₂))` where `dist` is the edit
distance with insertion and deletion cost 1 and substitution cost 2,
which is the ratio computed by its `python-Levenshtein` backend.  Ties
at `.5` are rounded up here; no input used below sits on a tie. -/

/-- One inner step of the edit-distance row computation: `prev` walks the
previous row, `diag` and `left` are the north-west and west neighbours of
the cell being produced. -/
def ldRow (c : Char) : List Char → List Nat → Nat → Nat → List Nat
  | b :: bs, p :: ps, diag, left =>
    let v := min (min (p + 1) (left + 1)) (diag + if c = b then 0 else 2)
    v :: ldRow c bs ps p v
  | _, _, _, _ => []

/-- Advance the dynamic-programming row by one character of the first
string. -/
def ldFold (bs : List Char) (row : List Nat) (c : Char) : List Nat :=
  match row with
  | [] => []
  | p :: ps => (p + 1) :: ldRow c bs ps p (p + 1)

/-- Edit distance (insertion 1, deletion 1, substitution 2) between two
character lists. -/
def lev2 (a b : List Char) : Nat :=
  (a.foldl (ldFold b) (List.range (b.length + 1))).getLastD 0

/-- `fuzz.ratio` model: an integer in `0..100`. -/
def fuzzRatio (a b : List Char) : Nat :=
  let lensum := a.length + b.length
  if lensum = 0 then 100
  else (200 * (lensum - lev2 a b) + lensum) / (2 * lensum)

/-! ## Intent detector (`models/intent_detector.py`, class `IntentDetector`) -/

/-- The seed catalog returned by `_load_default_intents`. -/
def defaultIntents : List (String × List String) := [
  ("greeting", ["kohomada", "kohomadha", "kohomda", "hello", "hi",
    "machan kohomada", "ayubowan", "kohoma hari"]),
  ("self_intro", ["mage nama", "my name is", "im", "i am",
    "mama", "mamai", "mamayi"]),
  ("ask_name", ["oyage nama mokakda", "whats your name", "who are you",
    "oya kawda", "oyage nama"]),
  ("how_are_you", ["oya kohomada", "how are you", "oyage hal",
    "oya hari honda neda", "oya hondaida"]),
  ("goodbye", ["bye", "goodbye", "giya", "mata yanna ona",
    "see you", "catch you later"]),
  ("thanks", ["thanks", "thank you", "stuti", "stutiyi",
    "bohoma stuti", "thanks machan"]),
  ("help", ["help", "help karanna", "mata help karanna",
    "help me", "mokak karanne"])]

/-- One entry of an `alternatives` list. -/
structure Alt where
  intent : String
  confidence : ℚ
deriving Repr, DecidableEq

/-- The dictionary returned by the prediction methods. -/
structure PredictResult where
  intent : String
  confidence : ℚ
  alternatives : List Alt
deriving Repr, DecidableEq

/-- A caller-supplied context dict (`None` is represented by `Option`
around it); Python truthiness of the dict is emptiness of the list. -/
abbrev Ctx := List (String × String)

/-- Python truthiness of `context.get(key)`: the key must be present and
its value non-empty. -/
def truthyGet (ctx : Ctx) (key : String) : Bool :=
  match ctx.lookup key with
  | some v => !v.isEmpty
  | none => false

/-- `IntentDetector._apply_context`. -/
def applyContext (intent : String) (conf : ℚ) (ctx : Ctx) : String × ℚ :=
  let c1 := if ctx.lookup "previous_intent" = some "greeting" ∧
      intent = "self_intro" then conf * mkRat 6 5 else conf
  let c2 := if truthyGet ctx "user_id" ∧ intent = "ask_name"
    then c1 * mkRat 4 5 else c1
  (intent, min c2 1)

/-- Running state of the scan in `_rule_based_predict`. -/
structure ScanState where
  bestMatch : Option String
  bestScore : ℚ
  alts : List Alt
deriving Repr, DecidableEq

/-- One `(intent, phrase)` iteration of the scan: on a new strict best,
the previous best (if any) is appended to the alternatives and the best
is replaced; otherwise any score above `0.5` is appended as an
alternative. -/
def scanStep (text : List Char) (st : ScanState) (p : String × String) :
    ScanState :=
  let score : ℚ := mkRat (fuzzRatio (pyLower text) (pyLower p.2.data)) 100
  if st.bestScore < score then
    { bestMatch := some p.1, bestScore := score,
      alts := st.alts ++ (match st.bestMatch with
        | some m => [⟨m, st.bestScore⟩]
        | none => []) }
  else if mkRat 1 2 < score then { st with alts := st.alts ++ [⟨p.1, score⟩] }
  else st

/-- The `(intent, phrase)` pairs in catalog iteration order. -/
def intentPhrasePairs : List (String × String) :=
  (defaultIntents.map (fun q => q.2.map (fun ph => (q.1, ph)))).flatten

/-- Insert into a descending-sorted list, after any earlier entry with an
equal confidence. -/
def insertAltDesc (a : Alt) : List Alt → List Alt
  | [] => [a]
  | b :: bs =>
    if b.confidence < a.confidence then a :: b :: bs
    else b :: insertAltDesc a bs

/-- Stable descending sort by confidence
(`alternatives.sort(key=..., reverse=True)`); a stable sort's output is
determined uniquely by the key order, so stable insertion sort models
CPython's stable `list.sort` exactly. -/
def sortAltsDesc (l : List Alt) : List Alt :=
  l.foldl (fun acc a => insertAltDesc a acc) []

/-- The return section of `_rule_based_predict`: accept the best match
only above `0.6`, sort and cap the alternatives, else answer `unknown`
with confidence `0.0`. -/
def ruleBasedFinish (st : ScanState) : PredictResult :=
  match st.bestMatch with
  | some m =>
    if mkRat 3 5 < st.bestScore then
      { intent := m, confidence := st.bestScore,
        alternatives := (sortAltsDesc st.alts).take 3 }
    else ⟨"unknown", 0, []⟩
  | none => ⟨"unknown", 0, []⟩

/-- `IntentDetector._rule_based_predict` (the context argument is
received but never used by the source function). -/
def ruleBasedPredict (text : List Char) (_ctx : Option Ctx) :
    PredictResult :=
  ruleBasedFinish (intentPhrasePairs.foldl (scanStep text) ⟨none, 0, []⟩)

/-- First index of the maximum (`np.argmax`), auxiliary loop. -/
def argmaxAux : List ℚ → Nat → Nat → ℚ → Nat
  | [], _, bi, _ => bi
  | x :: xs, i, bi, bv =>
    if bv < x then argmaxAux xs (i + 1) i x else argmaxAux xs (i + 1) bi bv

/-- First index of the maximum of a non-empty list (`np.argmax`). -/
def argmaxIdx : List ℚ → Nat
  | [] => 0
  | x :: xs => argmaxAux xs 1 0 x

/-- The `if context:` block at the end of `_ml_predict`: the adjustment
runs only when a context dict is supplied and non-empty (a `None` or
empty dict is falsy in Python). -/
def mlApplyCtx (best : String) (conf : ℚ) (alts : List Alt)
    (ctx : Option Ctx) : PredictResult :=
  match ctx with
  | some c =>
    if c.isEmpty then ⟨best, conf, alts⟩
    else
      let a := applyContext best conf c
      ⟨a.1, a.2, alts⟩
  | none => ⟨best, conf, alts⟩

/-- The body of `_ml_predict` after the probability vector is obtained:
`none` models any raised exception (empty probability vector, or an
index beyond `intent_labels`), which the source catches by falling back
to `_rule_based_predict`. -/
def mlCore (labels : List String) (probs : List ℚ) (ctx : Option Ctx) :
    Option PredictResult :=
  match probs with
  | [] => none
  | _ :: _ =>
    let idx := argmaxIdx probs
    let conf := probs.getD idx 0
    match labels[idx]? with
    | none => none
    | some best =>
      let cand := probs.enum.filter (fun q => q.1 ≠ idx ∧ mkRat 1 10 < q.2)
      if cand.all (fun q => q.1 < labels.length) then
        let alts := (sortAltsDesc (cand.map
          (fun q => ⟨labels.getD q.1 "", q.2⟩))).take 3
        some (mlApplyCtx best conf alts ctx)
      else none

/-- The serving state of the engine: the trained classifier is abstracted
to the probability vector it assigns to a text (the composition of the
fitted vectorizer's `transform` and `predict_proba`), the vectorizer to
the corpus it was fitted on. -/
structure EngineState where
  model : Option (List Char → List ℚ)
  vectorizer : Option (List (List Char))
  intentLabels : List String

/-- The label list installed by `IntentDetector._initialize_fallback`. -/
def fallbackIntentLabels : List String :=
  ["greeting", "self_intro", "ask_name", "how_are_you",
   "goodbye", "thanks", "help", "unknown"]

/-- `IntentDetector.predict`: the ML path is taken when both a model and
a vectorizer are present, and every exception inside `_ml_predict` falls
back to `_rule_based_predict`. -/
def predict (st : EngineState) (text : List Char) (ctx : Option Ctx) :
    PredictResult :=
  match st.model, st.vectorizer with
  | some f, some _ =>
    match mlCore st.intentLabels (f text) ctx with
    | some r => r
    | none => ruleBasedPredict text ctx
  | _, _ => ruleBasedPredict text ctx

/-- The report dict returned by a successful `train`. -/
structure TrainReport where
  accuracy : ℚ
  numIntents : Nat
  trainingSamples : Nat
deriving Repr, DecidableEq

/-- The training failure the specification discusses: the stratified
80/20 split refuses a class with fewer than two samples. -/
inductive TrainError
  | stratify
deriving Repr, DecidableEq

/-- `list(set(labels))` modelled as first-occurrence deduplication
(Python's set iteration order is unspecified; only the underlying set
matters to the claims below). -/
def uniqueLabels (l : List String) : List String :=
  l.foldl (fun acc x => if x ∈ acc then acc else acc ++ [x]) []

/-- `IntentDetector.train` with explicit state passing.  The external
sklearn pieces are abstracted: `fit` stands for fitting the random
forest together with the freshly fitted vectorizer (modelled as total),
`acc` for the held-out accuracy the evaluation reports.  The stratified
80/20 split fails exactly when some class has fewer than two samples
(sklearn's `train_test_split` with `stratify`); further library failure
modes are not modelled.  The source mutates `self.intent_labels` and
`self.vectorizer` *before* the split runs, so both assignments survive a
failing split; the raised error is the `Except.error` component. -/
def train (fit : List (List Char) → List Nat → (List Char → List ℚ))
    (acc : ℚ) (st : EngineState) (data : List (List Char × String)) :
    EngineState × Except TrainError TrainReport :=
  let texts := data.map (fun q => q.1)
  let labels := data.map (fun q => q.2)
  let newLabels := uniqueLabels labels
  let y := labels.map (fun l => newLabels.indexOf l)
  let st1 : EngineState :=
    { st with intentLabels := newLabels, vectorizer := some texts }
  if newLabels.any (fun l => labels.count l < 2) then
    (st1, Except.error TrainError.stratify)
  else
    ({ st1 with model := some (fit texts y) },
      Except.ok ⟨acc, newLabels.length, data.length⟩)

/-! ## Response generator (`models/response_generator.py`) -/

/-- `self.default_responses` from `ResponseGenerator.__init__`. -/
def defaultResponses : List (String × List String) := [
  ("greeting", [
    "Hari honda machan! Oya kohomada? 😊",
    "Ayubowan! Mama hari honda. Oya kohomada? 👋",
    "Hello machan! Everything good or not? 😄",
    "Wah, kohomada bro! Long time no see! 🤗"]),
  ("self_intro", [
    "Oya {name} neda? Hari honda! Mama CoverageBot, oyata help karanna puluwan! 🤖",
    "Nice to meet you {name}! Mama ai-powered Singlish chatbot kenek. 😊",
    "Wah {name}, nice name machan! Mata oyata Singlish walata reply karanna puluwan! 💬"]),
  ("ask_name", [
    "Mama CoverageBot! Singlish walata reply karanna puluwan chatbot kenek. Oyata mata kohomada kiyanawa? 😄",
    "My name is CoverageBot machan! AI-powered Singlish assistant kenek. What about you? 🤖",
    "Hehe, mama CoverageBot kiyanawa. Sri Lankan chatbot kenek. Oya? 😊"]),
  ("how_are_you", [
    "Mama hari honda machan! Always ready to chat! Oya kohomada? 💪",
    "I'm doing great la! Everyday also learning new Singlish words. You leh? 😊",
    "Aiyo, mama super good! Thanks for asking machan! 🌟"]),
  ("goodbye", [
    "Bye bye machan! Mata aye pennako! See you soon! 👋",
    "Okay la, see you later! Take care ah! 🤗",
    "Sige, giya giya! Come back and chat again okay! 😊"]),
  ("thanks", [
    "Mokakwath naha machan! Mata help karanna lassana! 😊",
    "Welcome la! Anytime can ask me anything! 🤝",
    "No problem bro! That's what friends are for mah! 💪"]),
  ("help", [
    "Mama oyata Singlish walata reply karanna puluwan! Try karala balanna - kohomada, oyage nama mokakda, thanks wage! 🤝",
    "Sure sure! I can understand Singlish and reply back. Try saying things like 'kohomada' or 'oya kawda'! 😄",
    "Of course can help! I'm here to chat in Singlish with you. What you want to know? 🤖"]),
  ("weather", [
    "Mata weather check karanna baha machan, but Google eken balanna puluwan! 🌤️",
    "Aiyo, I cannot check weather la. But today looks nice right? ☀️",
    "Sorry machan, weather updates mata naha. Try weather app! 🌦️"]),
  ("love", [
    "Aww, sweet machan! Mata podi robot kenek witharai, but thanks! 💕",
    "Hehe, so sweet! But I'm just AI la. Find real human better! 😄❤️",
    "Ayyo, mata emotions naha but appreciate the love! 🤗"]),
  ("food", [
    "Aiyo mata kanna baha! But rice and curry sounds good machan! 🍛",
    "Wah, food talk ah? I cannot eat but love hearing about Sri Lankan food! 🍜",
    "Cannot taste but kottu, hoppers, string hoppers all sound delicious! 🥘"]),
  ("unknown", [
    "Mata eka therenne naha machan! Try 'kohomada' or 'help' kiyla! 🤔",
    "Hmm, mata eka understand karanna baha. Simple Singlish walata try karanna! 😅",
    "Aiyo, mata confused! Can you say that again in simpler words? 🤷‍♂️",
    "Sorry machan, that one I don't know. Ask me something else! 💭"])]

/-- The introduction patterns of `_extract_name`, in source order. -/
def nameIntroPatterns : List (List Char) :=
  strList ["my name is ", "i am ", "im ", "mage nama ", "mama ",
    "mamai ", "mamayi "]

/-- First index at which `sub` occurs in `s` (`str.find` for a present
substring). -/
def findSubIdx (s sub : List Char) : Option Nat :=
  if sub.isPrefixOf s then some 0
  else
    match s with
    | [] => none
    | _ :: rest => (findSubIdx rest sub).map (· + 1)

/-- The characters removed by `name_parts[0].strip('.,!?')`. -/
def isNamePunct (c : Char) : Bool :=
  c = '.' || c = ',' || c = '!' || c = '?'

/-- `str.strip('.,!?')`. -/
def stripNamePunct (w : List Char) : List Char :=
  ((w.dropWhile isNamePunct).reverse.dropWhile isNamePunct).reverse

/-- Python `str.capitalize`: first character upper-cased, the rest
lower-cased (ASCII model). -/
def pyCapitalize : List Char → List Char
  | [] => []
  | c :: rest => Char.toUpper c :: pyLower rest

/-- The pattern loop of `ResponseGenerator._extract_name`: the first
pattern that occurs and is followed by at least one word yields the
name; a pattern with nothing after it lets the loop continue. -/
def extractNameGo (message ml : List Char) :
    List (List Char) → Option (List Char)
  | [] => none
  | p :: ps =>
    if hasSub ml p then
      match findSubIdx ml p with
      | some i =>
        match pySplit (pyStrip (message.drop (i + p.length))) with
        | w :: _ => some (pyCapitalize (stripNamePunct w))
        | [] => extractNameGo message ml ps
      | none => extractNameGo message ml ps
    else extractNameGo message ml ps

/-- `ResponseGenerator._extract_name`. -/
def extractName (message : List Char) : Option (List Char) :=
  extractNameGo message (pyLower message) nameIntroPatterns

/-- `random.choice` modelled by an externally supplied draw `k`,
reduced modulo the length of the non-empty candidate list. -/
def chooseFrom (l : List (List Char)) (k : Nat) : List Char :=
  l.getD (k % l.length) []

/-- `str.format(name=...)`: replace the `{name}` slot. -/
def formatName (template name : List Char) : List Char :=
  pyReplace template ("\x7bname\x7d".data) name

/-- `ResponseGenerator._get_base_response`, with the random draw made
explicit as `k`.  A falsy extracted name (`None` or the empty string)
skips the `format` call, so the raw template is returned. -/
def getBaseResponse (k : Nat) (intent : String) (message : List Char) :
    List Char :=
  match defaultResponses.lookup intent with
  | some rs =>
    let rsd := strList rs
    if intent = "self_intro" then
      match extractName message with
      | some name =>
        if name.isEmpty then chooseFrom rsd k
        else formatName (chooseFrom rsd k) name
      | none => chooseFrom rsd k
    else chooseFrom rsd k
  | none =>
    chooseFrom (strList (((defaultResponses.lookup "unknown")).getD [])) k

/-! ## Proof development -/

/-! ### Fuel elimination: the workers agree with their wrappers. -/

theorem pySplitFuel_eq (fuel : Nat) :
    ∀ s : List Char, s.length ≤ fuel → pySplitFuel fuel s = pySplit s := by
  induction fuel using Nat.strong_induction_on with
  | _ fuel ih =>
    intro s hs
    match fuel, s with
    | 0, [] => rfl
    | 0, c :: rest => simp at hs
    | f + 1, [] => rfl
    | f + 1, c :: rest =>
      simp only [List.length_cons] at hs
      show (if isPySpace c then pySplitFuel f rest
        else (c :: rest.takeWhile (fun d => !isPySpace d)) ::
          pySplitFuel f (rest.dropWhile (fun d => !isPySpace d))) = _
      show _ = (if isPySpace c then pySplitFuel rest.length rest
        else (c :: rest.takeWhile (fun d => !isPySpace d)) ::
          pySplitFuel rest.length (rest.dropWhile (fun d => !isPySpace d)))
      by_cases hc : isPySpace c
      · rw [if_pos hc, if_pos hc, ih f (by omega) rest (by omega),
          ih rest.length (by omega) rest le_rfl]
      · have hd := dropWhile_length_le (fun d => !isPySpace d) rest
        rw [if_neg hc, if_neg hc, ih f (by omega) _ (by omega),
          ih rest.length (by omega) _ hd]

theorem pySplit_nil : pySplit [] = [] := rfl

theorem pySplit_cons (c : Char) (rest : List Char) :
    pySplit (c :: rest) = if isPySpace c then pySplit rest
      else (c :: rest.takeWhile (fun d => !isPySpace d)) ::
        pySplit (rest.dropWhile (fun d => !isPySpace d)) := by
  show (if isPySpace c then pySplitFuel rest.length rest
    else (c :: rest.takeWhile (fun d => !isPySpace d)) ::
      pySplitFuel rest.length (rest.dropWhile (fun d => !isPySpace d))) = _
  by_cases hc : isPySpace c
  · rw [if_pos hc, if_pos hc]; rfl
  · rw [if_neg hc, if_neg hc,
      pySplitFuel_eq rest.length _ (dropWhile_length_le _ _)]

theorem pySplit_ind (motive : List Char → Prop) (case1 : motive [])
    (case2 : ∀ c rest, isPySpace c = true → motive rest → motive (c :: rest))
    (case3 : ∀ c rest, ¬ isPySpace c = true →
      motive (rest.dropWhile (fun d => !isPySpace d)) → motive (c :: rest)) :
    ∀ s, motive s := by
  have key : ∀ n (s : List Char), s.length ≤ n → motive s := by
    intro n
    induction n with
    | zero =>
      intro s hs
      rw [List.length_eq_zero.mp (Nat.le_zero.mp hs)]
      exact case1
    | succ n ih =>
      intro s hs
      match s with
      | [] => exact case1
      | c :: rest =>
        simp only [List.length_cons] at hs
        by_cases hc : isPySpace c = true
        · exact case2 c rest hc (ih rest (by omega))
        · refine case3 c rest hc (ih _ ?_)
          have := dropWhile_length_le (fun d => !isPySpace d) rest
          omega
  exact fun s => key s.length s le_rfl

theorem collapseWSFuel_eq (fuel : Nat) :
    ∀ s : List Char, s.length ≤ fuel → collapseWSFuel fuel s = collapseWS s := by
  induction fuel using Nat.strong_induction_on with
  | _ fuel ih =>
    intro s hs
    match fuel, s with
    | 0, [] => rfl
    | 0, c :: rest => simp at hs
    | f + 1, [] => rfl
    | f + 1, c :: rest =>
      simp only [List.length_cons] at hs
      show (if isPySpace c then ' ' :: collapseWSFuel f (rest.dropWhile isPySpace)
        else c :: collapseWSFuel f rest) = _
      show _ = (if isPySpace c then
          ' ' :: collapseWSFuel rest.length (rest.dropWhile isPySpace)
        else c :: collapseWSFuel rest.length rest)
      by_cases hc : isPySpace c
      · have hd := dropWhile_length_le isPySpace rest
        rw [if_pos hc, if_pos hc, ih f (by omega) _ (by omega),
          ih rest.length (by omega) _ hd]
      · rw [if_neg hc, if_neg hc, ih f (by omega) rest (by omega),
          ih rest.length (by omega) rest le_rfl]

theorem collapseWS_nil : collapseWS [] = [] := rfl

theorem collapseWS_cons (c : Char) (rest : List Char) :
    collapseWS (c :: rest) = if isPySpace c then
        ' ' :: collapseWS (rest.dropWhile isPySpace)
      else c :: collapseWS rest := by
  show (if isPySpace c then
      ' ' :: collapseWSFuel rest.length (rest.dropWhile isPySpace)
    else c :: collapseWSFuel rest.length rest) = _
  by_cases hc : isPySpace c
  · rw [if_pos hc, if_pos hc,
      collapseWSFuel_eq rest.length _ (dropWhile_length_le _ _)]
  · rw [if_neg hc, if_neg hc]; rfl

theorem collapseWS_ind (motive : List Char → Prop) (case1 : motive [])
    (case2 : ∀ c rest, isPySpace c = true →
      motive (rest.dropWhile isPySpace) → motive (c :: rest))
    (case3 : ∀ c rest, ¬ isPySpace c = true → motive rest →
      motive (c :: rest)) :
    ∀ s, motive s := by
  have key : ∀ n (s : List Char), s.length ≤ n → motive s := by
    intro n
    induction n with
    | zero =>
      intro s hs
      rw [List.length_eq_zero.mp (Nat.le_zero.mp hs)]
      exact case1
    | succ n ih =>
      intro s hs
      match s with
      | [] => exact case1
      | c :: rest =>
        simp only [List.length_cons] at hs
        by_cases hc : isPySpace c = true
        · refine case2 c rest hc (ih _ ?_)
          have := dropWhile_length_le isPySpace rest
          omega
        · exact case3 c rest hc (ih rest (by omega))
  exact fun s => key s.length s le_rfl

theorem pyReplaceFuel_eq (fuel : Nat) :
    ∀ (s old new : List Char), s.length ≤ fuel →
      pyReplaceFuel fuel s old new = pyReplace s old new := by
  induction fuel using Nat.strong_induction_on with
  | _ fuel ih =>
    intro s old new hs
    match fuel, s with
    | 0, [] => rfl
    | 0, c :: rest => simp at hs
    | f + 1, [] => rfl
    | f + 1, c :: rest =>
      simp only [List.length_cons] at hs
      show (if old ≠ [] ∧ old.isPrefixOf (c :: rest) then
          new ++ pyReplaceFuel f ((c :: rest).drop old.length) old new
        else c :: pyReplaceFuel f rest old new) = _
      show _ = (if old ≠ [] ∧ old.isPrefixOf (c :: rest) then
          new ++ pyReplaceFuel rest.length ((c :: rest).drop old.length) old new
        else c :: pyReplaceFuel rest.length rest old new)
      by_cases hp : old ≠ [] ∧ old.isPrefixOf (c :: rest)
      · have hol : 0 < old.length := List.length_pos.mpr hp.1
        have hd : ((c :: rest).drop old.length).length ≤ rest.length := by
          rw [List.length_drop, List.length_cons]
          omega
        rw [if_pos hp, if_pos hp, ih f (by omega) _ old new (by omega),
          ih rest.length (by omega) _ old new hd]
      · rw [if_neg hp, if_neg hp, ih f (by omega) rest old new (by omega),
          ih rest.length (by omega) rest old new le_rfl]

theorem pyReplace_nil (old new : List Char) : pyReplace [] old new = [] := rfl

theorem pyReplace_cons (c : Char) (rest old new : List Char) :
    pyReplace (c :: rest) old new =
      if old ≠ [] ∧ old.isPrefixOf (c :: rest) then
        new ++ pyReplace ((c :: rest).drop old.length) old new
      else c :: pyReplace rest old new := by
  show (if old ≠ [] ∧ old.isPrefixOf (c :: rest) then
      new ++ pyReplaceFuel rest.length ((c :: rest).drop old.length) old new
    else c :: pyReplaceFuel rest.length rest old new) = _
  by_cases hp : old ≠ [] ∧ old.isPrefixOf (c :: rest)
  · have hol : 0 < old.length := List.length_pos.mpr hp.1
    have hd : ((c :: rest).drop old.length).length ≤ rest.length := by
      rw [List.length_drop, List.length_cons]
      omega
    rw [if_pos hp, if_pos hp, pyReplaceFuel_eq rest.length _ old new hd]
  · rw [if_neg hp, if_neg hp]; rfl

theorem pyReplace_ind (old new : List Char) (motive : List Char → Prop)
    (case1 : motive [])
    (case2 : ∀ c rest, (old ≠ [] ∧ old.isPrefixOf (c :: rest)) →
      motive ((c :: rest).drop old.length) → motive (c :: rest))
    (case3 : ∀ c rest, ¬ (old ≠ [] ∧ old.isPrefixOf (c :: rest)) →
      motive rest → motive (c :: rest)) :
    ∀ s, motive s := by
  have key : ∀ n (s : List Char), s.length ≤ n → motive s := by
    intro n
    induction n with
    | zero =>
      intro s hs
      rw [List.length_eq_zero.mp (Nat.le_zero.mp hs)]
      exact case1
    | succ n ih =>
      intro s hs
      match s with
      | [] => exact case1
      | c :: rest =>
        simp only [List.length_cons] at hs
        by_cases hp : old ≠ [] ∧ old.isPrefixOf (c :: rest)
        · have hol : 0 < old.length := List.length_pos.mpr hp.1
          refine case2 c rest hp (ih _ ?_)
          rw [List.length_drop, List.length_cons]
          omega
        · exact case3 c rest hp (ih rest (by omega))
  exact fun s => key s.length s le_rfl

theorem punctCollapseFuel_eq (fuel : Nat) :
    ∀ s : List Char, s.length ≤ fuel →
      punctCollapseFuel fuel s = punctCollapse s := by
  induction fuel using Nat.strong_induction_on with
  | _ fuel ih =>
    intro s hs
    match fuel, s with
    | 0, [] => rfl
    | 0, c :: rest => simp at hs
    | f + 1, [] => rfl
    | f + 1, [c] =>
      show [c] = punctCollapseFuel 1 [c]
      rfl
    | f + 1, c :: d :: rest =>
      simp only [List.length_cons] at hs
      have hd2 := dropWhile_length_le isPunctQE (d :: rest)
      simp only [List.length_cons] at hd2
      show (if isPunctQE c then
          if isPunctQE d then
            '?' :: punctCollapseFuel f ((d :: rest).dropWhile isPunctQE)
          else c :: punctCollapseFuel f (d :: rest)
        else c :: punctCollapseFuel f (d :: rest)) = _
      show _ = (if isPunctQE c then
          if isPunctQE d then
            '?' :: punctCollapseFuel (rest.length + 1)
              ((d :: rest).dropWhile isPunctQE)
          else c :: punctCollapseFuel (rest.length + 1) (d :: rest)
        else c :: punctCollapseFuel (rest.length + 1) (d :: rest))
      have e1 : punctCollapseFuel f (d :: rest) =
          punctCollapseFuel (rest.length + 1) (d :: rest) := by
        rw [ih f (by omega) _ (by simp; omega),
          ih (rest.length + 1) (by omega) _ (by simp)]
      have e2 : punctCollapseFuel f ((d :: rest).dropWhile isPunctQE) =
          punctCollapseFuel (rest.length + 1) ((d :: rest).dropWhile isPunctQE) := by
        rw [ih f (by omega) _ (by omega), ih (rest.length + 1) (by omega) _ (by omega)]
      rw [e1, e2]

theorem punctCollapse_nil : punctCollapse [] = [] := rfl

theorem punctCollapse_single (c : Char) : punctCollapse [c] = [c] := rfl

theorem punctCollapse_cons2 (c d : Char) (rest : List Char) :
    punctCollapse (c :: d :: rest) =
      if isPunctQE c then
        if isPunctQE d then
          '?' :: punctCollapse ((d :: rest).dropWhile isPunctQE)
        else c :: punctCollapse (d :: rest)
      else c :: punctCollapse (d :: rest) := by
  have hd2 := dropWhile_length_le isPunctQE (d :: rest)
  simp only [List.length_cons] at hd2
  show (if isPunctQE c then
      if isPunctQE d then
        '?' :: punctCollapseFuel (rest.length + 1)
          ((d :: rest).dropWhile isPunctQE)
      else c :: punctCollapseFuel (rest.length + 1) (d :: rest)
    else c :: punctCollapseFuel (rest.length + 1) (d :: rest)) = _
  rw [punctCollapseFuel_eq (rest.length + 1) _ (by omega)]
  rfl

theorem punctCollapse_ind (motive : List Char → Prop) (case1 : motive [])
    (case2 : ∀ c, motive [c])
    (case3 : ∀ c d rest, isPunctQE c = true → isPunctQE d = true →
      motive ((d :: rest).dropWhile isPunctQE) → motive (c :: d :: rest))
    (case4 : ∀ c d rest, isPunctQE c = true → ¬ isPunctQE d = true →
      motive (d :: rest) → motive (c :: d :: rest))
    (case5 : ∀ c d rest, ¬ isPunctQE c = true → motive (d :: rest) →
      motive (c :: d :: rest)) :
    ∀ s, motive s := by
  have key : ∀ n (s : List Char), s.length ≤ n → motive s := by
    intro n
    induction n with
    | zero =>
      intro s hs
      rw [List.length_eq_zero.mp (Nat.le_zero.mp hs)]
      exact case1
    | succ n ih =>
      intro s hs
      match s with
      | [] => exact case1
      | [c] => exact case2 c
      | c :: d :: rest =>
        simp only [List.length_cons] at hs
        have hd2 := dropWhile_length_le isPunctQE (d :: rest)
        simp only [List.length_cons] at hd2
        by_cases hc : isPunctQE c = true
        · by_cases hdq : isPunctQE d = true
          · exact case3 c d rest hc hdq (ih _ (by omega))
          · exact case4 c d rest hc hdq (ih _ (by simp; omega))
        · exact case5 c d rest hc (ih _ (by simp; omega))
  exact fun s => key s.length s le_rfl

theorem mem_of_isPrefixOf {xs ys : List Char} (h : xs.isPrefixOf ys = true)
    {a : Char} (ha : a ∈ xs) : a ∈ ys := by
  induction xs generalizing ys with
  | nil => cases ha
  | cons x xs ih =>
    cases ys with
    | nil => simp [List.isPrefixOf] at h
    | cons y ys =>
      simp only [List.isPrefixOf, Bool.and_eq_true, beq_iff_eq] at h
      rcases List.mem_cons.mp ha with rfl | ha2
      · exact h.1 ▸ List.mem_cons_self _ _
      · exact List.mem_cons_of_mem _ (ih h.2 ha2)

theorem hasSub_mem {s sub : List Char} (h : hasSub s sub = true)
    {a : Char} (ha : a ∈ sub) : a ∈ s := by
  induction s with
  | nil =>
    simp only [hasSub, List.isEmpty_iff] at h
    subst h; cases ha
  | cons c rest ih =>
    simp only [hasSub, Bool.or_eq_true] at h
    rcases h with h | h
    · exact mem_of_isPrefixOf h ha
    · exact List.mem_cons_of_mem _ (ih h)

theorem pySplit_nil_of_all_space {s : List Char}
    (h : ∀ c ∈ s, isPySpace c = true) : pySplit s = [] := by
  induction s with
  | nil => rfl
  | cons c rest ih =>
    rw [pySplit_cons, if_pos (h c (List.mem_cons_self _ _))]
    exact ih (fun d hd => h d (List.mem_cons_of_mem _ hd))

theorem mem_pyStrip {s : List Char} {c : Char} (h : c ∈ pyStrip s) : c ∈ s := by
  unfold pyStrip dropTrailing at h
  have h1 := List.dropWhile_subset isPySpace (List.mem_reverse.mp h)
  exact List.dropWhile_subset isPySpace (List.mem_reverse.mp h1)

theorem mem_collapseWS {s : List Char} {c : Char} (h : c ∈ collapseWS s) :
    c ∈ s ∨ c = ' ' := by
  revert h
  refine collapseWS_ind (fun s => c ∈ collapseWS s → c ∈ s ∨ c = ' ') ?_ ?_ ?_ s
  · intro h; rw [collapseWS_nil] at h; cases h
  · intro d rest hd ih h
    rw [collapseWS_cons, if_pos hd] at h
    rcases List.mem_cons.mp h with rfl | h2
    · right; rfl
    · rcases ih h2 with h3 | h3
      · exact Or.inl (List.mem_cons_of_mem _ (List.dropWhile_subset _ h3))
      · exact Or.inr h3
  · intro d rest hd ih h
    rw [collapseWS_cons, if_neg hd] at h
    rcases List.mem_cons.mp h with rfl | h2
    · exact Or.inl (List.mem_cons_self _ _)
    · rcases ih h2 with h3 | h3
      · exact Or.inl (List.mem_cons_of_mem _ h3)
      · exact Or.inr h3

theorem mem_pyReplace {s old new : List Char} {c : Char}
    (h : c ∈ pyReplace s old new) : c ∈ s ∨ c ∈ new := by
  revert h
  refine pyReplace_ind old new
    (fun s => c ∈ pyReplace s old new → c ∈ s ∨ c ∈ new) ?_ ?_ ?_ s
  · intro h; rw [pyReplace_nil] at h; cases h
  · intro d rest hp ih h
    rw [pyReplace_cons, if_pos hp] at h
    rcases List.mem_append.mp h with h2 | h2
    · exact Or.inr h2
    · rcases ih h2 with h3 | h3
      · exact Or.inl (List.drop_subset _ _ h3)
      · exact Or.inr h3
  · intro d rest hp ih h
    rw [pyReplace_cons, if_neg hp] at h
    rcases List.mem_cons.mp h with rfl | h2
    · exact Or.inl (List.mem_cons_self _ _)
    · rcases ih h2 with h3 | h3
      · exact Or.inl (List.mem_cons_of_mem _ h3)
      · exact Or.inr h3

theorem pyReplace_id {s old new : List Char} {a : Char} (ha : a ∈ old)
    (hs : ∀ c ∈ s, c ≠ a) : pyReplace s old new = s := by
  revert hs
  refine pyReplace_ind old new
    (fun s => (∀ c ∈ s, c ≠ a) → pyReplace s old new = s) ?_ ?_ ?_ s
  · intro hs; rw [pyReplace_nil]
  · intro d rest hp ih hs
    exact absurd rfl (hs a (mem_of_isPrefixOf hp.2 ha))
  · intro d rest hp ih hs
    rw [pyReplace_cons, if_neg hp]
    rw [ih (fun c hc => hs c (List.mem_cons_of_mem _ hc))]

theorem pySplit_token_spec {s : List Char} {w : List Char}
    (hw : w ∈ pySplit s) : w ≠ [] ∧ ∀ c ∈ w, isPySpace c = false := by
  revert hw
  refine pySplit_ind
    (fun s => w ∈ pySplit s → w ≠ [] ∧ ∀ c ∈ w, isPySpace c = false) ?_ ?_ ?_ s
  · intro hw; rw [pySplit_nil] at hw; cases hw
  · intro c rest hc ih hw
    rw [pySplit_cons, if_pos hc] at hw
    exact ih hw
  · intro c rest hc ih hw
    rw [pySplit_cons, if_neg hc] at hw
    rcases List.mem_cons.mp hw with rfl | h2
    · constructor
      · exact List.cons_ne_nil _ _
      · intro d hd
        rcases List.mem_cons.mp hd with rfl | hd2
        · simpa using hc
        · have := List.mem_takeWhile_imp hd2
          simpa using this
    · exact ih h2

theorem mem_pySplit_mem {s w : List Char} (hw : w ∈ pySplit s)
    {c : Char} (hc : c ∈ w) : c ∈ s := by
  revert hw
  refine pySplit_ind (fun s => w ∈ pySplit s → c ∈ s) ?_ ?_ ?_ s
  · intro hw; rw [pySplit_nil] at hw; cases hw
  · intro d rest hd ih hw
    rw [pySplit_cons, if_pos hd] at hw
    exact List.mem_cons_of_mem _ (ih hw)
  · intro d rest hd ih hw
    rw [pySplit_cons, if_neg hd] at hw
    rcases List.mem_cons.mp hw with rfl | h2
    · rcases List.mem_cons.mp hc with rfl | h3
      · exact List.mem_cons_self _ _
      · exact List.mem_cons_of_mem _ (List.takeWhile_subset _ h3)
    · exact List.mem_cons_of_mem _ (List.dropWhile_subset _ (ih h2))

theorem mem_joinSpace {ws : List (List Char)} {c : Char}
    (h : c ∈ joinSpace ws) : (∃ w ∈ ws, c ∈ w) ∨ c = ' ' := by
  induction ws with
  | nil => rw [joinSpace] at h; cases h
  | cons w ws ih =>
    cases ws with
    | nil =>
      rw [joinSpace] at h
      exact Or.inl ⟨w, List.mem_cons_self _ _, h⟩
    | cons w2 ws2 =>
      rw [joinSpace] at h
      case x_1 => simp
      rcases List.mem_append.mp h with h2 | h2
      · exact Or.inl ⟨w, List.mem_cons_self _ _, h2⟩
      · rcases List.mem_cons.mp h2 with rfl | h3
        · exact Or.inr rfl
        · rcases ih h3 with ⟨v, hv, hcv⟩ | h4
          · exact Or.inl ⟨v, List.mem_cons_of_mem _ hv, hcv⟩
          · exact Or.inr h4

theorem takeWhile_eq_self_of_all {p : Char → Bool} {l : List Char}
    (h : ∀ c ∈ l, p c = true) : l.takeWhile p = l := by
  induction l with
  | nil => rfl
  | cons c rest ih =>
    rw [List.takeWhile_cons, if_pos (h c (List.mem_cons_self _ _))]
    rw [ih (fun d hd => h d (List.mem_cons_of_mem _ hd))]

theorem dropWhile_eq_nil_of_all {p : Char → Bool} {l : List Char}
    (h : ∀ c ∈ l, p c = true) : l.dropWhile p = [] := by
  induction l with
  | nil => rfl
  | cons c rest ih =>
    rw [List.dropWhile_cons, if_pos (h c (List.mem_cons_self _ _))]
    exact ih (fun d hd => h d (List.mem_cons_of_mem _ hd))

theorem pySplit_single {w : List Char} (h1 : w ≠ [])
    (h2 : ∀ c ∈ w, isPySpace c = false) : pySplit w = [w] := by
  cases w with
  | nil => exact absurd rfl h1
  | cons c rest =>
    rw [pySplit_cons, if_neg (by simp [h2 c (List.mem_cons_self _ _)])]
    have hall : ∀ d ∈ rest, (fun d => !isPySpace d) d = true := by
      intro d hd
      simp [h2 d (List.mem_cons_of_mem _ hd)]
    rw [takeWhile_eq_self_of_all hall, dropWhile_eq_nil_of_all hall, pySplit_nil]

theorem takeWhile_append_all {p : Char → Bool} {a b : List Char}
    (h : ∀ c ∈ a, p c = true) :
    (a ++ b).takeWhile p = a ++ b.takeWhile p := by
  induction a with
  | nil => rfl
  | cons c rest ih =>
    rw [List.cons_append, List.takeWhile_cons,
      if_pos (h c (List.mem_cons_self _ _)), List.cons_append,
      ih (fun d hd => h d (List.mem_cons_of_mem _ hd))]

theorem dropWhile_append_all {p : Char → Bool} {a b : List Char}
    (h : ∀ c ∈ a, p c = true) :
    (a ++ b).dropWhile p = b.dropWhile p := by
  induction a with
  | nil => rfl
  | cons c rest ih =>
    rw [List.cons_append, List.dropWhile_cons,
      if_pos (h c (List.mem_cons_self _ _)),
      ih (fun d hd => h d (List.mem_cons_of_mem _ hd))]

theorem takeWhile_append_stop (p : Char → Bool) (a b : List Char)
    (h : ¬ ∀ c ∈ a, p c = true) :
    (a ++ b).takeWhile p = a.takeWhile p ∧
      (a ++ b).dropWhile p = a.dropWhile p ++ b := by
  induction a with
  | nil => exact absurd (by intro c hc; cases hc) h
  | cons c rest ih =>
    by_cases hc : p c = true
    · have hrest : ¬ ∀ d ∈ rest, p d = true := by
        intro hall
        exact h (by
          intro d hd
          rcases List.mem_cons.mp hd with rfl | hd2
          · exact hc
          · exact hall d hd2)
      have := ih hrest
      constructor
      · rw [List.cons_append, List.takeWhile_cons, if_pos hc, this.1,
          List.takeWhile_cons, if_pos hc]
      · rw [List.cons_append, List.dropWhile_cons, if_pos hc, this.2,
          List.dropWhile_cons, if_pos hc]
    · constructor
      · rw [List.cons_append, List.takeWhile_cons, if_neg hc,
          List.takeWhile_cons, if_neg hc]
      · rw [List.cons_append, List.dropWhile_cons, if_neg hc,
          List.dropWhile_cons, if_neg hc, List.cons_append]

theorem pySplit_append_sep (b : List Char) :
    ∀ a : List Char, pySplit (a ++ ' ' :: b) = pySplit a ++ pySplit b := by
  refine pySplit_ind _ ?_ ?_ ?_
  · have h1 : pySplit ([] ++ ' ' :: b) = pySplit b := by
      rw [List.nil_append, pySplit_cons, if_pos (show isPySpace ' ' = true by decide)]
    rw [h1, pySplit_nil, List.nil_append]
  · intro c rest hc ih
    rw [List.cons_append, pySplit_cons, if_pos hc, ih, pySplit_cons, if_pos hc]
  · intro c rest hc ih
    rw [List.cons_append, pySplit_cons, if_neg hc]
    by_cases hall : ∀ d ∈ rest, (fun d => !isPySpace d) d = true
    · rw [takeWhile_append_all hall, dropWhile_append_all hall]
      rw [List.takeWhile_cons, if_neg (by decide), List.append_nil]
      rw [List.dropWhile_cons, if_neg (by decide)]
      rw [pySplit_cons, if_pos (show isPySpace ' ' = true by decide)]
      rw [pySplit_cons, if_neg hc, takeWhile_eq_self_of_all hall,
        dropWhile_eq_nil_of_all hall, pySplit_nil]
      rw [List.cons_append, List.nil_append]
    · have hs := takeWhile_append_stop _ rest (' ' :: b) hall
      rw [hs.1, hs.2, ih, pySplit_cons, if_neg hc, List.cons_append]

theorem takeWhile_nonspace_of_space {u : List Char}
    (hu : ∀ c ∈ u, isPySpace c = true) :
    u.takeWhile (fun d => !isPySpace d) = [] := by
  cases u with
  | nil => rfl
  | cons c rest =>
    rw [List.takeWhile_cons, if_neg (by simp [hu c (List.mem_cons_self _ _)])]

theorem dropWhile_nonspace_of_space {u : List Char}
    (hu : ∀ c ∈ u, isPySpace c = true) :
    u.dropWhile (fun d => !isPySpace d) = u := by
  cases u with
  | nil => rfl
  | cons c rest =>
    rw [List.dropWhile_cons, if_neg (by simp [hu c (List.mem_cons_self _ _)])]

theorem pySplit_append_spaces {u : List Char}
    (hu : ∀ c ∈ u, isPySpace c = true) :
    ∀ t : List Char, pySplit (t ++ u) = pySplit t := by
  refine pySplit_ind _ ?_ ?_ ?_
  · rw [List.nil_append, pySplit_nil_of_all_space hu, pySplit_nil]
  · intro c rest hc ih
    rw [List.cons_append, pySplit_cons, if_pos hc, ih, pySplit_cons, if_pos hc]
  · intro c rest hc ih
    rw [List.cons_append, pySplit_cons, if_neg hc]
    by_cases hall : ∀ d ∈ rest, (fun d => !isPySpace d) d = true
    · rw [takeWhile_append_all hall, dropWhile_append_all hall,
        takeWhile_nonspace_of_space hu, dropWhile_nonspace_of_space hu,
        pySplit_nil_of_all_space hu, List.append_nil]
      rw [pySplit_cons, if_neg hc, takeWhile_eq_self_of_all hall,
        dropWhile_eq_nil_of_all hall, pySplit_nil]
    · have hs := takeWhile_append_stop _ rest u hall
      rw [hs.1, hs.2, ih, pySplit_cons, if_neg hc]

theorem pySplit_join (ws : List (List Char)) :
    pySplit (joinSpace ws) = (ws.map pySplit).flatten := by
  induction ws with
  | nil => rw [joinSpace, pySplit_nil]; rfl
  | cons w ws ih =>
    cases ws with
    | nil => rw [joinSpace]; simp
    | cons w2 ws2 =>
      rw [joinSpace]
      case x_1 => simp
      rw [pySplit_append_sep, ih]
      simp

theorem pySplit_dropWhile (s : List Char) :
    pySplit (s.dropWhile isPySpace) = pySplit s := by
  induction s with
  | nil => rfl
  | cons c rest ih =>
    by_cases hc : isPySpace c = true
    · rw [List.dropWhile_cons, if_pos hc, ih, pySplit_cons, if_pos hc]
    · rw [List.dropWhile_cons, if_neg hc]

theorem pySplit_dropTrailing (t : List Char) :
    pySplit (dropTrailing t) = pySplit t := by
  have hsplit : t = dropTrailing t ++ (t.reverse.takeWhile isPySpace).reverse := by
    unfold dropTrailing
    conv_lhs => rw [← List.reverse_reverse t,
      ← List.takeWhile_append_dropWhile isPySpace t.reverse]
    rw [List.reverse_append]
  have hu : ∀ c ∈ (t.reverse.takeWhile isPySpace).reverse, isPySpace c = true := by
    intro c hc
    exact List.mem_takeWhile_imp (List.mem_reverse.mp hc)
  conv_rhs => rw [hsplit]
  rw [pySplit_append_spaces hu]

theorem pySplit_pyStrip (s : List Char) : pySplit (pyStrip s) = pySplit s := by
  unfold pyStrip
  rw [pySplit_dropTrailing, pySplit_dropWhile]

def wordOrSpace (c : Char) : Bool := isWordChar c || isPySpace c

theorem punctCollapse_id {s : List Char}
    (h : ∀ c ∈ s, isPunctQE c = false) : punctCollapse s = s := by
  revert h
  refine punctCollapse_ind
    (fun s => (∀ c ∈ s, isPunctQE c = false) → punctCollapse s = s)
    ?_ ?_ ?_ ?_ ?_ s
  · intro h; rw [punctCollapse_nil]
  · intro c h; rw [punctCollapse_single]
  · intro c d rest hc hd ih h
    exact absurd (h c (List.mem_cons_self _ _)) (by simp [hc])
  · intro c d rest hc hd ih h
    exact absurd (h c (List.mem_cons_self _ _)) (by simp [hc])
  · intro c d rest hc ih h
    rw [punctCollapse_cons2, if_neg hc,
      ih (fun e he => h e (List.mem_cons_of_mem _ he))]

theorem mem_punctCollapse {s : List Char} {c : Char}
    (h : c ∈ punctCollapse s) : c ∈ s ∨ c = '?' := by
  revert h
  refine punctCollapse_ind
    (fun s => c ∈ punctCollapse s → c ∈ s ∨ c = '?') ?_ ?_ ?_ ?_ ?_ s
  · intro h; rw [punctCollapse_nil] at h; cases h
  · intro d h
    rw [punctCollapse_single] at h
    exact Or.inl h
  · intro d e rest hd he ih h
    rw [punctCollapse_cons2, if_pos hd, if_pos he] at h
    rcases List.mem_cons.mp h with rfl | h2
    · exact Or.inr rfl
    · rcases ih h2 with h3 | h3
      · exact Or.inl (List.mem_cons_of_mem _ (List.dropWhile_subset _ h3))
      · exact Or.inr h3
  · intro d e rest hd he ih h
    rw [punctCollapse_cons2, if_pos hd, if_neg he] at h
    rcases List.mem_cons.mp h with rfl | h2
    · exact Or.inl (List.mem_cons_self _ _)
    · rcases ih h2 with h3 | h3
      · exact Or.inl (List.mem_cons_of_mem _ h3)
      · exact Or.inr h3
  · intro d e rest hd ih h
    rw [punctCollapse_cons2, if_neg hd] at h
    rcases List.mem_cons.mp h with rfl | h2
    · exact Or.inl (List.mem_cons_self _ _)
    · rcases ih h2 with h3 | h3
      · exact Or.inl (List.mem_cons_of_mem _ h3)
      · exact Or.inr h3

theorem wordOrSpace_not_punct {c : Char} (h : wordOrSpace c = true) :
    isPunctQE c = false := by
  cases hq : isPunctQE c
  · rfl
  · exfalso
    simp only [isPunctQE, Bool.or_eq_true, decide_eq_true_eq] at hq
    rcases hq with rfl | rfl
    · exact absurd h (by decide)
    · exact absurd h (by decide)

theorem cleanPunctuation_id {s : List Char}
    (h : ∀ c ∈ s, wordOrSpace c = true) : cleanPunctuation s = s := by
  unfold cleanPunctuation
  have hf : s.filter keepChar = s := by
    rw [List.filter_eq_self]
    intro c hc
    have := h c hc
    simp only [wordOrSpace, Bool.or_eq_true] at this
    simp only [keepChar, Bool.or_eq_true]
    tauto
  rw [hf]
  exact punctCollapse_id (fun c hc => wordOrSpace_not_punct (h c hc))

theorem toNat_ofNat_valid (n : Nat) (h1 : n < 55296) :
    (Char.ofNat n).toNat = n := by
  unfold Char.ofNat
  split
  · rfl
  · next hv => exact absurd (Or.inl h1) hv

theorem toLower_of_not_upper {c : Char} (h : ¬(65 ≤ c.toNat ∧ c.toNat ≤ 90)) :
    c.toLower = c := by
  show (if c.toNat ≥ 65 ∧ c.toNat ≤ 90 then Char.ofNat (c.toNat + 32) else c) = c
  rw [if_neg h]

theorem toLower_toNat_of_upper {c : Char} (h : 65 ≤ c.toNat ∧ c.toNat ≤ 90) :
    c.toLower.toNat = c.toNat + 32 := by
  show (if c.toNat ≥ 65 ∧ c.toNat ≤ 90 then Char.ofNat (c.toNat + 32)
    else c).toNat = c.toNat + 32
  rw [if_pos h, toNat_ofNat_valid]
  omega

theorem toLower_not_upper (c : Char) :
    ¬(65 ≤ c.toLower.toNat ∧ c.toLower.toNat ≤ 90) := by
  by_cases h : 65 ≤ c.toNat ∧ c.toNat ≤ 90
  · rw [toLower_toNat_of_upper h]
    omega
  · rw [toLower_of_not_upper h]
    exact h

theorem toLower_wordOrSpace {c : Char} (h : wordOrSpace c = true) :
    wordOrSpace c.toLower = true := by
  by_cases hu : 65 ≤ c.toNat ∧ c.toNat ≤ 90
  · have := toLower_toNat_of_upper hu
    simp only [wordOrSpace, isWordChar, Bool.or_eq_true, decide_eq_true_eq,
      Bool.and_eq_true]
    left; left; right
    omega
  · rw [toLower_of_not_upper hu]
    exact h

/-- The apostrophe character (written via its code point). -/
def apoChar : Char := Char.ofNat 39

theorem lookup_mem {l : List (List Char × List Char)} {k v : List Char}
    (h : l.lookup k = some v) : (k, v) ∈ l := by
  induction l with
  | nil => simp [List.lookup] at h
  | cons q rest ih =>
    rw [List.lookup] at h
    split at h
    · rename_i hk
      obtain ⟨q1, q2⟩ := q
      simp only [beq_iff_eq] at hk
      simp only [Option.some.injEq] at h
      subst hk
      subst h
      exact List.mem_cons_self _ _
    · exact List.mem_cons_of_mem _ (ih h)

theorem factA1 : ∀ q ∈ singlishMappings, ∀ p ∈ particleList,
    p ∉ pySplit q.2 := by decide

theorem factA2 : ∀ q ∈ sinhalaRomanized, ∀ p ∈ particleList,
    p ∉ pySplit q.2 := by decide

theorem factApo : ∀ q ∈ contractionMapping, apoChar ∈ q.1 := by decide

theorem factWS1 : ∀ q ∈ singlishMappings, ∀ c ∈ q.2,
    wordOrSpace c = true := by decide

theorem factWS2 : ∀ q ∈ sinhalaRomanized, ∀ c ∈ q.2,
    wordOrSpace c = true := by decide

theorem singlishTerms_no_particle (s : List Char) :
    ∀ p ∈ particleList, p ∉ pySplit (processSinglishTerms s) := by
  intro p hp hmem
  unfold processSinglishTerms at hmem
  rw [pySplit_join, List.mem_flatten] at hmem
  obtain ⟨l, hl, hpl⟩ := hmem
  rw [List.mem_map] at hl
  obtain ⟨w', hw', rfl⟩ := hl
  rw [List.mem_filterMap] at hw'
  obtain ⟨w, hw, hfw⟩ := hw'
  split at hfw
  · cases hfw
  · rename_i hwp
    split at hfw
    · rename_i m hlk
      split at hfw
      · cases hfw
      · cases hfw
        exact factA1 _ (lookup_mem hlk) p hp hpl
    · rename_i hlk
      cases hfw
      have hts := pySplit_token_spec hw
      rw [pySplit_single hts.1 hts.2] at hpl
      rw [List.mem_singleton] at hpl
      exact hwp (hpl ▸ hp)

theorem sinhalaTerms_no_particle {s : List Char}
    (hs : ∀ p ∈ particleList, p ∉ pySplit s) :
    ∀ p ∈ particleList, p ∉ pySplit (processSinhalaTerms s) := by
  intro p hp hmem
  unfold processSinhalaTerms at hmem
  rw [pySplit_join, List.mem_flatten] at hmem
  obtain ⟨l, hl, hpl⟩ := hmem
  rw [List.mem_map] at hl
  obtain ⟨w', hw', rfl⟩ := hl
  rw [List.mem_map] at hw'
  obtain ⟨w, hw, hfw⟩ := hw'
  split at hfw
  · rename_i m hlk
    cases hfw
    exact factA2 _ (lookup_mem hlk) p hp hpl
  · rename_i hlk
    cases hfw
    have hts := pySplit_token_spec hw
    rw [pySplit_single hts.1 hts.2] at hpl
    rw [List.mem_singleton] at hpl
    exact hs p hp (hpl ▸ hw)

theorem processSinglish_chars {s : List Char}
    (hs : ∀ c ∈ s, wordOrSpace c = true) :
    ∀ c ∈ processSinglishTerms s, wordOrSpace c = true := by
  intro c hc
  unfold processSinglishTerms at hc
  rcases mem_joinSpace hc with ⟨w', hw', hcw⟩ | rfl
  · rw [List.mem_filterMap] at hw'
    obtain ⟨w, hw, hfw⟩ := hw'
    split at hfw
    · cases hfw
    · split at hfw
      · split at hfw
        · cases hfw
        · rename_i m hlk hme
          cases hfw
          exact factWS1 _ (lookup_mem hlk) c hcw
      · cases hfw
        exact hs c (mem_pySplit_mem hw hcw)
  · decide

theorem processSinhala_chars {s : List Char}
    (hs : ∀ c ∈ s, wordOrSpace c = true) :
    ∀ c ∈ processSinhalaTerms s, wordOrSpace c = true := by
  intro c hc
  unfold processSinhalaTerms at hc
  rcases mem_joinSpace hc with ⟨w', hw', hcw⟩ | rfl
  · rw [List.mem_map] at hw'
    obtain ⟨w, hw, hfw⟩ := hw'
    split at hfw
    · rename_i m hlk
      cases hfw
      exact factWS2 _ (lookup_mem hlk) c hcw
    · cases hfw
      exact hs c (mem_pySplit_mem hw hcw)
  · decide

theorem foldl_pyReplace_id {u : List Char} {l : List (List Char × List Char)}
    (hl : ∀ q ∈ l, apoChar ∈ q.1) (hu : ∀ c ∈ u, c ≠ apoChar) :
    l.foldl (fun t p => pyReplace t p.1 p.2) u = u := by
  induction l with
  | nil => rfl
  | cons q rest ih =>
    rw [List.foldl_cons,
      pyReplace_id (hl q (List.mem_cons_self _ _)) hu]
    exact ih (fun r hr => hl r (List.mem_cons_of_mem _ hr))

theorem expandContractions_id {u : List Char}
    (hu : ∀ c ∈ u, wordOrSpace c = true) : expandContractions u = u := by
  unfold expandContractions
  refine foldl_pyReplace_id factApo ?_
  intro c hc he
  have := hu c hc
  rw [he] at this
  exact absurd this (by decide)

theorem process_eq (t : List Char) :
    process t = pyStrip (cleanPunctuation (processSinhalaTerms
      (processSinglishTerms (expandContractions
        (collapseWS (pyStrip (pyLower t))))))) := rfl

theorem c4_amended_raw {t : List Char}
    (ht : ∀ c ∈ t, wordOrSpace c = true) :
    ∀ p ∈ particleList, p ∉ pySplit (process t) := by
  intro p hp
  have h0 : ∀ c ∈ pyLower t, wordOrSpace c = true := by
    intro c hc
    rw [pyLower, List.mem_map] at hc
    obtain ⟨d, hd, rfl⟩ := hc
    exact toLower_wordOrSpace (ht d hd)
  have h1 : ∀ c ∈ pyStrip (pyLower t), wordOrSpace c = true :=
    fun c hc => h0 c (mem_pyStrip hc)
  have h2 : ∀ c ∈ collapseWS (pyStrip (pyLower t)), wordOrSpace c = true := by
    intro c hc
    rcases mem_collapseWS hc with h3 | rfl
    · exact h1 c h3
    · decide
  rw [process_eq, expandContractions_id h2]
  have h4 := processSinglish_chars h2
  have h5 := processSinhala_chars h4
  rw [cleanPunctuation_id h5, pySplit_pyStrip]
  exact sinhalaTerms_no_particle
    (singlishTerms_no_particle (collapseWS (pyStrip (pyLower t)))) p hp

/-! ### Lower-case invariant of the pipeline (claim C10). -/

theorem mem_foldl_pyReplace {l : List (List Char × List Char)}
    {u : List Char} {c : Char}
    (h : c ∈ l.foldl (fun t p => pyReplace t p.1 p.2) u) :
    c ∈ u ∨ ∃ q ∈ l, c ∈ q.2 := by
  induction l generalizing u with
  | nil => exact Or.inl h
  | cons q rest ih =>
    rw [List.foldl_cons] at h
    rcases ih h with h2 | ⟨r, hr, hcr⟩
    · rcases mem_pyReplace h2 with h3 | h3
      · exact Or.inl h3
      · exact Or.inr ⟨q, List.mem_cons_self _ _, h3⟩
    · exact Or.inr ⟨r, List.mem_cons_of_mem _ hr, hcr⟩

theorem factNU1 : ∀ q ∈ singlishMappings, ∀ c ∈ q.2,
    ¬(65 ≤ c.toNat ∧ c.toNat ≤ 90) := by decide

theorem factNU2 : ∀ q ∈ sinhalaRomanized, ∀ c ∈ q.2,
    ¬(65 ≤ c.toNat ∧ c.toNat ≤ 90) := by decide

theorem factNU3 : ∀ q ∈ contractionMapping, ∀ c ∈ q.2,
    ¬(65 ≤ c.toNat ∧ c.toNat ≤ 90) := by decide

theorem processSinglish_chars_P {P : Char → Prop} {s : List Char}
    (hs : ∀ c ∈ s, P c)
    (hv : ∀ q ∈ singlishMappings, ∀ c ∈ q.2, P c) (hsp : P ' ') :
    ∀ c ∈ processSinglishTerms s, P c := by
  intro c hc
  unfold processSinglishTerms at hc
  rcases mem_joinSpace hc with ⟨w', hw', hcw⟩ | rfl
  · rw [List.mem_filterMap] at hw'
    obtain ⟨w, hw, hfw⟩ := hw'
    split at hfw
    · cases hfw
    · split at hfw
      · split at hfw
        · cases hfw
        · rename_i m hlk hme
          cases hfw
          exact hv _ (lookup_mem hlk) c hcw
      · cases hfw
        exact hs c (mem_pySplit_mem hw hcw)
  · exact hsp

theorem processSinhala_chars_P {P : Char → Prop} {s : List Char}
    (hs : ∀ c ∈ s, P c)
    (hv : ∀ q ∈ sinhalaRomanized, ∀ c ∈ q.2, P c) (hsp : P ' ') :
    ∀ c ∈ processSinhalaTerms s, P c := by
  intro c hc
  unfold processSinhalaTerms at hc
  rcases mem_joinSpace hc with ⟨w', hw', hcw⟩ | rfl
  · rw [List.mem_map] at hw'
    obtain ⟨w, hw, hfw⟩ := hw'
    split at hfw
    · rename_i m hlk
      cases hfw
      exact hv _ (lookup_mem hlk) c hcw
    · cases hfw
      exact hs c (mem_pySplit_mem hw hcw)
  · exact hsp

theorem process_not_upper {t : List Char} :
    ∀ c ∈ process t, ¬(65 ≤ c.toNat ∧ c.toNat ≤ 90) := by
  have h0 : ∀ c ∈ pyLower t, ¬(65 ≤ c.toNat ∧ c.toNat ≤ 90) := by
    intro c hc
    rw [pyLower, List.mem_map] at hc
    obtain ⟨d, hd, rfl⟩ := hc
    exact toLower_not_upper d
  have h1 : ∀ c ∈ pyStrip (pyLower t), ¬(65 ≤ c.toNat ∧ c.toNat ≤ 90) :=
    fun c hc => h0 c (mem_pyStrip hc)
  have h2 : ∀ c ∈ collapseWS (pyStrip (pyLower t)),
      ¬(65 ≤ c.toNat ∧ c.toNat ≤ 90) := by
    intro c hc
    rcases mem_collapseWS hc with h3 | rfl
    · exact h1 c h3
    · decide
  have h3 : ∀ c ∈ expandContractions (collapseWS (pyStrip (pyLower t))),
      ¬(65 ≤ c.toNat ∧ c.toNat ≤ 90) := by
    intro c hc
    unfold expandContractions at hc
    rcases mem_foldl_pyReplace hc with h4 | ⟨q, hq, hcq⟩
    · exact h2 c h4
    · exact factNU3 q hq c hcq
  have h4 := processSinglish_chars_P h3 factNU1 (by decide)
  have h5 := processSinhala_chars_P h4 factNU2 (by decide)
  intro c hc
  rw [process_eq] at hc
  have hc2 := mem_pyStrip hc
  unfold cleanPunctuation at hc2
  rcases mem_punctCollapse hc2 with h6 | rfl
  · exact h5 c (List.mem_of_mem_filter h6)
  · decide

theorem pyLower_process (t : List Char) :
    pyLower (process t) = process t := by
  unfold pyLower
  have h : ∀ c ∈ process t, Char.toLower c = c :=
    fun c hc => toLower_of_not_upper (process_not_upper c hc)
  exact (List.map_congr_left h).trans (List.map_id _)

/-! ### `strip`/`lower` algebra for the failure handler (claim C8). -/

theorem toLower_idem (c : Char) : (Char.toLower c).toLower = c.toLower :=
  toLower_of_not_upper (toLower_not_upper c)

theorem pyLower_idem (s : List Char) : pyLower (pyLower s) = pyLower s := by
  unfold pyLower
  rw [List.map_map]
  exact List.map_congr_left (fun c _ => toLower_idem c)

theorem isPySpace_toLower (c : Char) : isPySpace c.toLower = isPySpace c := by
  by_cases hu : 65 ≤ c.toNat ∧ c.toNat ≤ 90
  · have hl := toLower_toNat_of_upper hu
    have h1 : isPySpace c.toLower = false := by
      simp only [isPySpace, Bool.or_eq_false_iff, decide_eq_false_iff_not]
      refine ⟨⟨⟨?_, ?_⟩, ?_⟩, ?_⟩ <;> intro he <;> rw [he] at hl
      · have h32 : Char.toNat ' ' = 32 := rfl
        omega
      · have h9 : Char.toNat '\t' = 9 := rfl
        omega
      · have h10 : Char.toNat '\n' = 10 := rfl
        omega
      · have h13 : Char.toNat '\r' = 13 := rfl
        omega
    have h2 : isPySpace c = false := by
      simp only [isPySpace, Bool.or_eq_false_iff, decide_eq_false_iff_not]
      refine ⟨⟨⟨?_, ?_⟩, ?_⟩, ?_⟩ <;> intro he <;> rw [he] at hu <;>
        exact absurd hu (by decide)
    rw [h1, h2]
  · rw [toLower_of_not_upper hu]

theorem dropWhile_idem (p : Char → Bool) (l : List Char) :
    (l.dropWhile p).dropWhile p = l.dropWhile p := by
  induction l with
  | nil => rfl
  | cons c rest ih =>
    by_cases hc : p c = true
    · rw [List.dropWhile_cons, if_pos hc, ih]
    · rw [List.dropWhile_cons, if_neg hc, List.dropWhile_cons, if_neg hc]

theorem dropWhile_head_false {p : Char → Bool} {l : List Char} {c : Char}
    {t : List Char} (h : l.dropWhile p = c :: t) : p c = false := by
  induction l with
  | nil => cases h
  | cons d rest ih =>
    by_cases hd : p d = true
    · rw [List.dropWhile_cons, if_pos hd] at h
      exact ih h
    · rw [List.dropWhile_cons, if_neg hd] at h
      cases h
      exact Bool.not_eq_true _ ▸ (by simpa using hd)

theorem pyStrip_idem (s : List Char) : pyStrip (pyStrip s) = pyStrip s := by
  have hsuffix : ∀ l : List Char,
      dropTrailing l ++ (l.reverse.takeWhile isPySpace).reverse = l := by
    intro l
    unfold dropTrailing
    conv_rhs => rw [← List.reverse_reverse l,
      ← List.takeWhile_append_dropWhile isPySpace l.reverse]
    rw [List.reverse_append]
  have hstep1 : (pyStrip s).dropWhile isPySpace = pyStrip s := by
    cases hps : pyStrip s with
    | nil => rfl
    | cons c t =>
      have hy : s.dropWhile isPySpace =
          (c :: t) ++ (((s.dropWhile isPySpace).reverse.takeWhile
            isPySpace)).reverse := by
        conv_lhs => rw [← hsuffix (s.dropWhile isPySpace)]
        unfold pyStrip at hps
        rw [hps]
      have hc : isPySpace c = false := by
        have := dropWhile_head_false (l := s) (by
          rw [hy]; rfl)
        exact this
      rw [List.dropWhile_cons, if_neg (by simp [hc])]
  have hstep2 : dropTrailing (pyStrip s) = pyStrip s := by
    unfold pyStrip dropTrailing
    rw [List.reverse_reverse, dropWhile_idem]
  show dropTrailing ((pyStrip s).dropWhile isPySpace) = pyStrip s
  rw [hstep1, hstep2]

theorem pyLower_pyStrip (s : List Char) :
    pyLower (pyStrip s) = pyStrip (pyLower s) := by
  have hmap : isPySpace ∘ Char.toLower = isPySpace :=
    funext (fun c => isPySpace_toLower c)
  unfold pyStrip dropTrailing pyLower
  conv_rhs => rw [List.dropWhile_map, hmap, ← List.map_reverse,
    List.dropWhile_map, hmap, ← List.map_reverse]

/-! ### Language-classifier scoring (claim C1). -/

theorem markerLoop_eq (text : List Char) (w : ℚ) (ms : List (List Char))
    (s : ℚ) : markerLoop text w ms s =
      s + ((ms.filter (fun m => hasSub text m)).length : ℚ) * w := by
  induction ms generalizing s with
  | nil => simp [markerLoop]
  | cons m ms ih =>
    rw [markerLoop, List.foldl_cons]
    by_cases hm : hasSub text m = true
    · rw [if_pos hm]
      rw [show (List.foldl (fun acc m => if hasSub text m = true then acc + w
        else acc) (s + w) ms) = markerLoop text w ms (s + w) from rfl, ih]
      rw [List.filter_cons, if_pos (by simpa using hm)]
      push_cast [List.length_cons]
      ring
    · rw [if_neg hm]
      rw [show (List.foldl (fun acc m => if hasSub text m = true then acc + w
        else acc) s ms) = markerLoop text w ms s from rfl, ih]
      rw [List.filter_cons, if_neg (by simpa using hm)]

theorem all_space_of_pySplit_nil {s : List Char} (h : pySplit s = []) :
    ∀ c ∈ s, isPySpace c = true := by
  revert h
  refine pySplit_ind
    (fun s => pySplit s = [] → ∀ c ∈ s, isPySpace c = true) ?_ ?_ ?_ s
  · intro _ c hc; cases hc
  · intro d rest hd ih h c hc
    rw [pySplit_cons, if_pos hd] at h
    rcases List.mem_cons.mp hc with rfl | hc2
    · exact hd
    · exact ih h c hc2
  · intro d rest hd ih h c hc
    rw [pySplit_cons, if_neg hd] at h
    cases h

theorem hasSub_false_of_space {s m : List Char}
    (hs : ∀ c ∈ s, isPySpace c = true) {a : Char} (ha : a ∈ m)
    (hna : isPySpace a = false) : hasSub s m = false := by
  cases hm : hasSub s m
  · rfl
  · exact absurd (hs a (hasSub_mem hm ha)) (by simp [hna])

theorem factMarkersNonSpace :
    ∀ m ∈ markerParticles ++ markerSinhalaWords ++
      markerGrammarPatterns ++ markerExpressions,
      ∃ a ∈ m, isPySpace a = false := by decide

theorem calculateSinglishScore_eq_amended (t : List Char) :
    calculateSinglishScore t = amendedScoreC1 t := by
  unfold calculateSinglishScore amendedScoreC1
  by_cases hsplit : pySplit t = []
  · rw [if_pos hsplit]
    have hall := all_space_of_pySplit_nil hsplit
    have hfilter : ∀ ms ⊆ (markerParticles ++ markerSinhalaWords ++
        markerGrammarPatterns ++ markerExpressions),
        ms.filter (fun m => hasSub t m) = [] := by
      intro ms hms
      rw [List.filter_eq_nil_iff]
      intro m hm
      obtain ⟨a, ham, hna⟩ := factMarkersNonSpace m (hms hm)
      simp [hasSub_false_of_space hall ham hna]
    rw [hfilter markerParticles (by intro x hx; simp [hx]),
      hfilter markerSinhalaWords (by intro x hx; simp [hx]),
      hfilter markerGrammarPatterns (by intro x hx; simp [hx]),
      hfilter markerExpressions (by intro x hx; simp [hx])]
    norm_num
  · rw [if_neg hsplit]
    rw [markerLoop_eq, markerLoop_eq, markerLoop_eq, markerLoop_eq]
    congr 1
    push_cast
    ring

theorem classifyLanguage_eq_amended (t : List Char) :
    classifyLanguage t = amendedClassifyC1 t := by
  have hle : amendedScoreC1 (pyLower t) ≤ 1 := min_le_right _ _
  simp only [classifyLanguage, amendedClassifyC1,
    calculateSinglishScore_eq_amended, min_eq_left hle]

/-! ### Confidence bounds (claim C5). -/

theorem fuzzRatio_le_100 (a b : List Char) : fuzzRatio a b ≤ 100 := by
  unfold fuzzRatio
  by_cases h0 : a.length + b.length = 0
  · rw [if_pos h0]
  · rw [if_neg h0]
    have hpos : 0 < 2 * (a.length + b.length) := by omega
    have hsub : a.length + b.length - lev2 a b ≤ a.length + b.length :=
      Nat.sub_le _ _
    have : (200 * (a.length + b.length - lev2 a b) + (a.length + b.length)) /
        (2 * (a.length + b.length)) < 101 := by
      rw [Nat.div_lt_iff_lt_mul hpos]
      omega
    omega

theorem mkRat_nat_unit {r : Nat} (hr : r ≤ 100) :
    0 ≤ mkRat (r : Int) 100 ∧ mkRat (r : Int) 100 ≤ 1 := by
  rw [Rat.mkRat_eq_div]
  constructor
  · positivity
  · rw [div_le_one (by norm_num)]
    exact_mod_cast (by exact_mod_cast hr : ((r : Int) : ℚ) ≤ 100)

theorem scanStep_bounds (text : List Char) (st : ScanState)
    (p : String × String) (h0 : 0 ≤ st.bestScore) (h1 : st.bestScore ≤ 1) :
    0 ≤ (scanStep text st p).bestScore ∧ (scanStep text st p).bestScore ≤ 1 := by
  unfold scanStep
  have hb := mkRat_nat_unit (fuzzRatio_le_100 (pyLower text) (pyLower p.2.data))
  by_cases hlt : st.bestScore < mkRat (fuzzRatio (pyLower text) (pyLower p.2.data)) 100
  · rw [if_pos hlt]
    exact hb
  · rw [if_neg hlt]
    by_cases hgt : mkRat 1 2 < mkRat (fuzzRatio (pyLower text) (pyLower p.2.data)) 100
    · rw [if_pos hgt]
      exact ⟨h0, h1⟩
    · rw [if_neg hgt]
      exact ⟨h0, h1⟩

theorem scan_fold_bounds (text : List Char) (l : List (String × String)) :
    ∀ st : ScanState, 0 ≤ st.bestScore → st.bestScore ≤ 1 →
      0 ≤ (l.foldl (scanStep text) st).bestScore ∧
        (l.foldl (scanStep text) st).bestScore ≤ 1 := by
  induction l with
  | nil => intro st h0 h1; exact ⟨h0, h1⟩
  | cons p rest ih =>
    intro st h0 h1
    rw [List.foldl_cons]
    have hb := scanStep_bounds text st p h0 h1
    exact ih _ hb.1 hb.2

theorem ruleBasedFinish_bounds (st : ScanState) (h0 : 0 ≤ st.bestScore)
    (h1 : st.bestScore ≤ 1) :
    0 ≤ (ruleBasedFinish st).confidence ∧
      (ruleBasedFinish st).confidence ≤ 1 := by
  unfold ruleBasedFinish
  split
  · split
    · exact ⟨h0, h1⟩
    · norm_num
  · norm_num

theorem ruleBasedPredict_bounds (text : List Char) (ctx : Option Ctx) :
    0 ≤ (ruleBasedPredict text ctx).confidence ∧
      (ruleBasedPredict text ctx).confidence ≤ 1 := by
  have hb := scan_fold_bounds text intentPhrasePairs ⟨none, 0, []⟩
    le_rfl (by norm_num)
  exact ruleBasedFinish_bounds _ hb.1 hb.2

theorem applyContext_intent (intent : String) (conf : ℚ) (ctx : Ctx) :
    (applyContext intent conf ctx).1 = intent := rfl

theorem applyContext_bounds (intent : String) (conf : ℚ) (ctx : Ctx)
    (h0 : 0 ≤ conf) (h1 : conf ≤ 1) :
    0 ≤ (applyContext intent conf ctx).2 ∧
      (applyContext intent conf ctx).2 ≤ 1 := by
  unfold applyContext
  have hc1 : (0 : ℚ) ≤ (if ctx.lookup "previous_intent" = some "greeting" ∧
      intent = "self_intro" then conf * mkRat 6 5 else conf) := by
    split
    · exact mul_nonneg h0 (by norm_num [Rat.mkRat_eq_div])
    · exact h0
  have hc2 : (0 : ℚ) ≤ (if truthyGet ctx "user_id" = true ∧
      intent = "ask_name" then (if ctx.lookup "previous_intent" =
        some "greeting" ∧ intent = "self_intro" then conf * mkRat 6 5
        else conf) * mkRat 4 5
      else (if ctx.lookup "previous_intent" = some "greeting" ∧
        intent = "self_intro" then conf * mkRat 6 5 else conf)) := by
    split
    · exact mul_nonneg hc1 (by norm_num [Rat.mkRat_eq_div])
    · exact hc1
  constructor
  · exact le_min hc2 (by norm_num)
  · exact min_le_right _ _

theorem mlApplyCtx_bounds (best : String) (conf : ℚ) (alts : List Alt)
    (ctx : Option Ctx) (h0 : 0 ≤ conf) (h1 : conf ≤ 1) :
    0 ≤ (mlApplyCtx best conf alts ctx).confidence ∧
      (mlApplyCtx best conf alts ctx).confidence ≤ 1 := by
  unfold mlApplyCtx
  split
  · split
    · exact ⟨h0, h1⟩
    · exact applyContext_bounds _ _ _ h0 h1
  · exact ⟨h0, h1⟩

theorem mlCore_bounds {labels : List String} {probs : List ℚ}
    {ctx : Option Ctx} {r : PredictResult}
    (hp : ∀ p ∈ probs, 0 ≤ p ∧ p ≤ 1)
    (h : mlCore labels probs ctx = some r) :
    0 ≤ r.confidence ∧ r.confidence ≤ 1 := by
  unfold mlCore at h
  cases probs with
  | nil => exact Option.noConfusion h
  | cons q qs =>
    dsimp only [] at h
    have hconf : 0 ≤ (q :: qs).getD (argmaxIdx (q :: qs)) 0 ∧
        (q :: qs).getD (argmaxIdx (q :: qs)) 0 ≤ 1 := by
      by_cases hidx : argmaxIdx (q :: qs) < (q :: qs).length
      · rw [List.getD_eq_getElem _ _ hidx]
        exact hp _ (List.getElem_mem hidx)
      · rw [List.getD_eq_default _ _ (by omega)]
        norm_num
    split at h
    · exact Option.noConfusion h
    · split at h
      · rename_i best hbest hguard
        cases h
        exact mlApplyCtx_bounds _ _ _ _ hconf.1 hconf.2
      · exact Option.noConfusion h

theorem predict_bounds (st : EngineState) (text : List Char)
    (ctx : Option Ctx)
    (hm : ∀ f, st.model = some f → ∀ t, ∀ p ∈ f t, 0 ≤ p ∧ p ≤ 1) :
    0 ≤ (predict st text ctx).confidence ∧
      (predict st text ctx).confidence ≤ 1 := by
  unfold predict
  split
  · rename_i f v hf hv
    cases hml : mlCore st.intentLabels (f text) ctx with
    | some r =>
      exact mlCore_bounds (hm f hf text) hml
    | none =>
      exact ruleBasedPredict_bounds text ctx
  · exact ruleBasedPredict_bounds text ctx

/-! ### Alternatives list shape (claim C6). -/

theorem mem_insertAltDesc {a x : Alt} {l : List Alt}
    (h : x ∈ insertAltDesc a l) : x = a ∨ x ∈ l := by
  induction l with
  | nil =>
    rw [insertAltDesc] at h
    rcases List.mem_singleton.mp h with rfl
    exact Or.inl rfl
  | cons b bs ih =>
    rw [insertAltDesc] at h
    split at h
    · rcases List.mem_cons.mp h with rfl | h2
      · exact Or.inl rfl
      · exact Or.inr h2
    · rcases List.mem_cons.mp h with rfl | h2
      · exact Or.inr (List.mem_cons_self _ _)
      · rcases ih h2 with h3 | h3
        · exact Or.inl h3
        · exact Or.inr (List.mem_cons_of_mem _ h3)

theorem insertAltDesc_sorted {a : Alt} {l : List Alt}
    (h : l.Pairwise (fun x y => y.confidence ≤ x.confidence)) :
    (insertAltDesc a l).Pairwise (fun x y => y.confidence ≤ x.confidence) := by
  induction l with
  | nil =>
    rw [insertAltDesc]
    exact List.pairwise_singleton _ _
  | cons b bs ih =>
    rw [insertAltDesc]
    rw [List.pairwise_cons] at h
    split
    · rename_i hlt
      rw [List.pairwise_cons]
      constructor
      · intro x hx
        rcases List.mem_cons.mp hx with rfl | hx2
        · exact le_of_lt hlt
        · exact le_trans (h.1 x hx2) (le_of_lt hlt)
      · rw [List.pairwise_cons]
        exact h
    · rename_i hnlt
      rw [List.pairwise_cons]
      constructor
      · intro x hx
        rcases mem_insertAltDesc hx with rfl | hx2
        · exact le_of_not_lt hnlt
        · exact h.1 x hx2
      · exact ih h.2

theorem sortAltsDesc_sorted (l : List Alt) :
    (sortAltsDesc l).Pairwise (fun x y => y.confidence ≤ x.confidence) := by
  unfold sortAltsDesc
  suffices hgen : ∀ acc : List Alt,
      acc.Pairwise (fun x y => y.confidence ≤ x.confidence) →
      (l.foldl (fun acc a => insertAltDesc a acc) acc).Pairwise
        (fun x y => y.confidence ≤ x.confidence) by
    exact hgen [] (List.Pairwise.nil)
  induction l with
  | nil => intro acc hacc; exact hacc
  | cons a rest ih =>
    intro acc hacc
    rw [List.foldl_cons]
    exact ih _ (insertAltDesc_sorted hacc)

theorem mem_sortAltsDesc {x : Alt} {l : List Alt}
    (h : x ∈ sortAltsDesc l) : x ∈ l := by
  unfold sortAltsDesc at h
  suffices hgen : ∀ acc : List Alt,
      x ∈ l.foldl (fun acc a => insertAltDesc a acc) acc →
      x ∈ acc ∨ x ∈ l by
    rcases hgen [] h with h2 | h2
    · cases h2
    · exact h2
  clear h
  induction l with
  | nil => intro acc h; exact Or.inl h
  | cons a rest ih =>
    intro acc h
    rw [List.foldl_cons] at h
    rcases ih _ h with h2 | h2
    · rcases mem_insertAltDesc h2 with rfl | h3
      · exact Or.inr (List.mem_cons_self _ _)
      · exact Or.inl h3
    · exact Or.inr (List.mem_cons_of_mem _ h2)

theorem alts_shape_ruleBasedFinish (st : ScanState) :
    (ruleBasedFinish st).alternatives.length ≤ 3 ∧
      (ruleBasedFinish st).alternatives.Pairwise
        (fun x y => y.confidence ≤ x.confidence) := by
  unfold ruleBasedFinish
  split
  · split
    · constructor
      · exact List.length_take_le _ _
      · exact (sortAltsDesc_sorted _).sublist (List.take_sublist _ _)
    · simp
  · simp

theorem alts_shape_predict (st : EngineState) (text : List Char)
    (ctx : Option Ctx) :
    (predict st text ctx).alternatives.length ≤ 3 ∧
      (predict st text ctx).alternatives.Pairwise
        (fun x y => y.confidence ≤ x.confidence) := by
  have hrule : ∀ c, (ruleBasedPredict text c).alternatives.length ≤ 3 ∧
      (ruleBasedPredict text c).alternatives.Pairwise
        (fun x y => y.confidence ≤ x.confidence) := by
    intro c
    exact alts_shape_ruleBasedFinish _
  unfold predict
  split
  · rename_i f v hf hv
    cases hml : mlCore st.intentLabels (f text) ctx with
    | some r =>
      have : r.alternatives.length ≤ 3 ∧ r.alternatives.Pairwise
          (fun x y => y.confidence ≤ x.confidence) := by
        unfold mlCore at hml
        cases hft : f text with
        | nil => rw [hft] at hml; exact Option.noConfusion hml
        | cons q qs =>
          rw [hft] at hml
          dsimp only [] at hml
          split at hml
          · exact Option.noConfusion hml
          · split at hml
            · rename_i best hbest hguard
              cases hml
              have halts : ∀ best conf alts c,
                  (mlApplyCtx best conf alts c).alternatives = alts := by
                intro best conf alts c
                unfold mlApplyCtx
                split
                · split
                  · rfl
                  · rfl
                · rfl
              rw [halts]
              constructor
              · exact List.length_take_le _ _
              · exact (sortAltsDesc_sorted _).sublist (List.take_sublist _ _)
            · exact Option.noConfusion hml
      exact this
    | none => exact hrule ctx
  · exact hrule ctx

theorem mlApplyCtx_intent (best : String) (conf : ℚ) (alts : List Alt)
    (ctx : Option Ctx) : (mlApplyCtx best conf alts ctx).intent = best := by
  unfold mlApplyCtx
  split
  · split
    · rfl
    · rfl
  · rfl

theorem mlApplyCtx_alts (best : String) (conf : ℚ) (alts : List Alt)
    (ctx : Option Ctx) : (mlApplyCtx best conf alts ctx).alternatives = alts := by
  unfold mlApplyCtx
  split
  · split
    · rfl
    · rfl
  · rfl

theorem mlCore_excludes_top {labels : List String} {probs : List ℚ}
    {ctx : Option Ctx} {r : PredictResult} (hnd : labels.Nodup)
    (h : mlCore labels probs ctx = some r) :
    r.intent ∉ r.alternatives.map Alt.intent := by
  unfold mlCore at h
  cases probs with
  | nil => exact Option.noConfusion h
  | cons q qs =>
    dsimp only [] at h
    split at h
    · exact Option.noConfusion h
    · split at h
      · rename_i best hbest hguard
        cases h
        rw [mlApplyCtx_intent, mlApplyCtx_alts]
        obtain ⟨hidx, hbesteq⟩ := List.getElem?_eq_some_iff.mp hbest
        intro hmem
        rw [List.mem_map] at hmem
        obtain ⟨x, hx, hxi⟩ := hmem
        have hx2 := mem_sortAltsDesc (List.take_subset _ _ hx)
        rw [List.mem_map] at hx2
        obtain ⟨⟨i, p⟩, hip, hxeq⟩ := hx2
        have hicond := List.of_mem_filter hip
        simp only [decide_eq_true_eq] at hicond
        have hilt : i < labels.length := by
          have := List.all_eq_true.mp hguard _ hip
          simpa using this
        have : labels.getD i "" = labels[i] := List.getD_eq_getElem _ _ hilt
        rw [← hxeq] at hxi
        simp only [this] at hxi
        rw [← hbesteq] at hxi
        exact hicond.1 ((List.Nodup.getElem_inj_iff hnd).mp hxi)
      · exact Option.noConfusion h

theorem mlCore_some_ctx {labels : List String} {probs : List ℚ} {c : Ctx}
    (hc : c ≠ []) :
    mlCore labels probs (some c) = (mlCore labels probs none).map
      (fun r => ⟨r.intent, (applyContext r.intent r.confidence c).2,
        r.alternatives⟩) := by
  unfold mlCore
  cases probs with
  | nil => rfl
  | cons q qs =>
    dsimp only []
    cases hbest : labels[argmaxIdx (q :: qs)]? with
    | none => rfl
    | some best =>
      generalize ((q :: qs).enum.filter
        (fun p => decide (p.1 ≠ argmaxIdx (q :: qs) ∧ mkRat 1 10 < p.2))) = cand
      cases hg : cand.all (fun p => decide (p.1 < labels.length)) with
      | false => simp [hg]
      | true =>
        simp only [hg, if_true, Option.map_some]
        congr 1
        show mlApplyCtx best ((q :: qs).getD (argmaxIdx (q :: qs)) 0) _ (some c) = _
        unfold mlApplyCtx
        dsimp only []
        rw [if_neg (by simp [List.isEmpty_eq_false.mpr hc])]
        rw [applyContext_intent]

/-! ### Training failure (claim C3). -/

theorem train_error_state
    (fit : List (List Char) → List Nat → (List Char → List ℚ)) (acc : ℚ)
    (st : EngineState) (data : List (List Char × String)) (e : TrainError)
    (h : (train fit acc st data).2 = Except.error e) :
    (train fit acc st data).1.model = st.model ∧
      (train fit acc st data).1.intentLabels =
        uniqueLabels (data.map (fun q => q.2)) ∧
      (train fit acc st data).1.vectorizer =
        some (data.map (fun q => q.1)) := by
  unfold train at h ⊢
  dsimp only [] at h ⊢
  split at h
  · rename_i hcond
    rw [if_pos hcond]
    exact ⟨rfl, rfl, rfl⟩
  · exact Except.noConfusion h

/-! ### Unfilled name slot (claim C7). -/

theorem extractNameGo_none {message ml : List Char} {ps : List (List Char)}
    (h : ∀ p ∈ ps, hasSub ml p = false) :
    extractNameGo message ml ps = none := by
  induction ps with
  | nil => rfl
  | cons p ps ih =>
    rw [extractNameGo,
      if_neg (by simp [h p (List.mem_cons_self _ _)])]
    exact ih (fun q hq => h q (List.mem_cons_of_mem _ hq))

theorem extractName_none {msg : List Char}
    (h : ∀ p ∈ nameIntroPatterns, hasSub (pyLower msg) p = false) :
    extractName msg = none :=
  extractNameGo_none h

theorem getBaseResponse_unfilled (k : Nat) (msg : List Char)
    (h : ∀ p ∈ nameIntroPatterns, hasSub (pyLower msg) p = false) :
    hasSub (getBaseResponse k "self_intro" msg) ("\x7bname\x7d".data) = true := by
  have hen : extractName msg = none := extractName_none h
  obtain ⟨rs, hrs⟩ : ∃ rs, defaultResponses.lookup "self_intro" = some rs :=
    ⟨_, rfl⟩
  unfold getBaseResponse
  rw [hrs]
  dsimp only []
  rw [if_pos rfl, hen]
  unfold chooseFrom
  have hlen : (strList rs).length = 3 := by
    cases Option.some.inj hrs
    rfl
  rw [hlen]
  have h3 : k % 3 = 0 ∨ k % 3 = 1 ∨ k % 3 = 2 := by omega
  cases Option.some.inj hrs
  rcases h3 with h3 | h3 | h3 <;> rw [h3] <;> decide

/-! ## The claims -/

unseal Rat.add Rat.sub Rat.mul in
/-- C1 counterexample: on `"lah lor"` the code's per-marker scoring finds
three particle substrings (`lah`, `lor`, and `ah` inside `lah`) and
scores `0.9`, labelling the text `singlish`, while the claim's
per-category formula scores `0.3` and labels it `english`. -/
theorem C1_counterexample :
    classifyLanguage ("lah lor".data) ≠ specClassifyC1 ("lah lor".data) ∧
      (classifyLanguage ("lah lor".data)).classification = "singlish" ∧
      (specClassifyC1 ("lah lor".data)).classification = "english" := by
  refine ⟨?_, ?_, ?_⟩ <;> decide

/-- C1 (amended): the classifier's score adds the category weight once
per *marker* whose substring occurs (not once per category), clamps to
1, and then decides singlish/sinhala_romanized/english exactly as the
claim's decision rule states. -/
theorem C1_amended_theorem :
    ∀ text, classifyLanguage text = amendedClassifyC1 text :=
  classifyLanguage_eq_amended

unseal Rat.mul in
/-- C2 counterexample: with a fuzzy-path engine (no trained model), text
`"oyage nama"` and a context carrying `user_id`, the code returns
`ask_name` with confidence `1.0`; the claimed strategy-agnostic
adjustment would have multiplied it by `0.8`. -/
theorem C2_counterexample :
    (predict ⟨none, none, fallbackIntentLabels⟩ ("oyage nama".data)
        (some [("user_id", "u1")])).intent = "ask_name" ∧
      (predict ⟨none, none, fallbackIntentLabels⟩ ("oyage nama".data)
        (some [("user_id", "u1")])).confidence = 1 ∧
      (applyContext "ask_name" 1 [("user_id", "u1")]).2 = mkRat 4 5 ∧
      (mkRat 4 5 : ℚ) ≠ 1 := by
  refine ⟨?_, ?_, ?_, ?_⟩ <;> decide

/-- C2 (amended): the context adjustment runs only in the statistical
path, and there only when the supplied context dict is non-empty; the
fuzzy path receives the context argument and ignores it entirely. -/
theorem C2_amended_theorem :
    (∀ text ctx, ruleBasedPredict text ctx = ruleBasedPredict text none) ∧
      (∀ labels probs (c : Ctx), c ≠ [] →
        mlCore labels probs (some c) = (mlCore labels probs none).map
          (fun r => ⟨r.intent, (applyContext r.intent r.confidence c).2,
            r.alternatives⟩)) :=
  ⟨fun _ _ => rfl, fun _ _ _ hc => mlCore_some_ctx hc⟩

unseal Rat.mul in
theorem C2_amended_witness :
    mlCore ["self_intro"] [mkRat 9 10] (some [("previous_intent", "greeting")]) =
      (mlCore ["self_intro"] [mkRat 9 10] none).map
        (fun r => ⟨r.intent, (applyContext r.intent r.confidence
          [("previous_intent", "greeting")]).2, r.alternatives⟩) :=
  C2_amended_theorem.2 ["self_intro"] [mkRat 9 10]
    [("previous_intent", "greeting")] (by decide)

/-- Concrete training inputs for the C3 counterexample: one sample whose
label therefore has fewer than two members, so the stratified split
fails. -/
def fitZero : List (List Char) → List Nat → (List Char → List ℚ) :=
  fun _ _ => fun _ => []

def engineBeforeTraining : EngineState :=
  ⟨none, some ["old corpus".data], ["old_label_a", "old_label_b"]⟩

def singletonTrainingData : List (List Char × String) :=
  [("hi".data, "greeting")]

/-- C3 counterexample: training on a single-sample label raises the
stratification error, yet the engine's label list and vectorizer have
already been overwritten before the failure — the serving state is not
left exactly as it was. -/
theorem C3_counterexample :
    (train fitZero 0 engineBeforeTraining singletonTrainingData).2 =
        Except.error TrainError.stratify ∧
      (train fitZero 0 engineBeforeTraining
        singletonTrainingData).1.intentLabels ≠
        engineBeforeTraining.intentLabels ∧
      (train fitZero 0 engineBeforeTraining
        singletonTrainingData).1.vectorizer ≠
        engineBeforeTraining.vectorizer := by
  refine ⟨rfl, ?_, ?_⟩ <;> decide

/-- C3 (amended): a failing train call raises the error to its caller
and leaves the active model untouched, but the label list and the
vectorizer have already been replaced (with the new label set and the
new corpus) by the time the split fails. -/
theorem C3_amended_theorem :
    ∀ fit acc st data e, (train fit acc st data).2 = Except.error e →
      (train fit acc st data).1.model = st.model ∧
        (train fit acc st data).1.intentLabels =
          uniqueLabels (data.map (fun q => q.2)) ∧
        (train fit acc st data).1.vectorizer =
          some (data.map (fun q => q.1)) :=
  fun fit acc st data e h => train_error_state fit acc st data e h

theorem C3_amended_witness :
    (train fitZero 0 engineBeforeTraining singletonTrainingData).1.model =
        engineBeforeTraining.model ∧
      (train fitZero 0 engineBeforeTraining
        singletonTrainingData).1.intentLabels =
        uniqueLabels (singletonTrainingData.map (fun q => q.2)) ∧
      (train fitZero 0 engineBeforeTraining
        singletonTrainingData).1.vectorizer =
        some (singletonTrainingData.map (fun q => q.1)) :=
  C3_amended_theorem fitZero 0 engineBeforeTraining singletonTrainingData
    TrainError.stratify rfl

/-- C4 counterexample: in `"ok lah."` the token `lah.` is not equal to
the particle `lah`, so the particle pass keeps it, and the later
punctuation cleanup strips the period — `lah` is a token of the
canonical output. -/
theorem C4_counterexample :
    ("lah".data ∈ particleList) ∧
      "lah".data ∈ pySplit (process ("ok lah.".data)) := by
  exact ⟨by decide, by decide⟩

/-- C4 (amended): for input text containing only word characters
(letters, digits, underscore) and whitespace — in particular no
punctuation adjacent to a particle — no discourse particle appears as a
token of the canonical output. -/
theorem C4_amended_theorem :
    ∀ t, (∀ c ∈ t, wordOrSpace c = true) →
      ∀ p ∈ particleList, p ∉ pySplit (process t) :=
  fun _ ht => c4_amended_raw ht

theorem C4_amended_witness :
    "lah".data ∉ pySplit (process ("ok lah".data)) :=
  C4_amended_theorem ("ok lah".data) (by decide) ("lah".data) (by decide)

/-- C5: the confidence returned by `predict` lies in `[0, 1]` for every
engine state, text and context, assuming only that the external model's
probability vector (sklearn's `predict_proba`) stays inside `[0, 1]`. -/
theorem C5_theorem :
    ∀ (st : EngineState) (text : List Char) (ctx : Option Ctx),
      (∀ f, st.model = some f → ∀ t, ∀ p ∈ f t, 0 ≤ p ∧ p ≤ 1) →
      0 ≤ (predict st text ctx).confidence ∧
        (predict st text ctx).confidence ≤ 1 :=
  fun st text ctx hm => predict_bounds st text ctx hm

def engineWithHalfModel : EngineState :=
  ⟨some (fun _ => [mkRat 1 2]), some [], ["greeting"]⟩

theorem C5_witness :
    0 ≤ (predict engineWithHalfModel ("hello".data) none).confidence ∧
      (predict engineWithHalfModel ("hello".data) none).confidence ≤ 1 :=
  C5_theorem engineWithHalfModel ("hello".data) none (by
    intro f hf t p hp
    have hfe : (fun _ : List Char => [mkRat 1 2]) = f := Option.some.inj hf
    rw [← hfe] at hp
    simp only [List.mem_singleton] at hp
    subst hp
    exact ⟨by decide, by decide⟩)

/-- C6 counterexample: on `"kohomada"` the fuzzy scan makes `greeting`
the best match with confidence `1.0`, but other greeting phrases
(`kohomadha`, `kohomda`) also score above `0.5` and are appended as
alternatives, so the alternatives list contains the top pick's label. -/
theorem C6_counterexample :
    (predict ⟨none, none, fallbackIntentLabels⟩ ("kohomada".data)
        none).intent = "greeting" ∧
      "greeting" ∈ ((predict ⟨none, none, fallbackIntentLabels⟩
        ("kohomada".data) none).alternatives.map Alt.intent) := by
  exact ⟨by decide, by decide⟩

/-- C6 (amended): the alternatives list always has length at most 3 and
is sorted by descending confidence; the top pick's label is excluded
from the alternatives in the statistical path (for a duplicate-free
label list), but the fuzzy path can include it. -/
theorem C6_amended_theorem :
    (∀ (st : EngineState) (text : List Char) (ctx : Option Ctx),
        (predict st text ctx).alternatives.length ≤ 3 ∧
          (predict st text ctx).alternatives.Pairwise
            (fun x y => y.confidence ≤ x.confidence)) ∧
      (∀ (labels : List String) (probs : List ℚ) (ctx : Option Ctx)
          (r : PredictResult), labels.Nodup →
          mlCore labels probs ctx = some r →
          r.intent ∉ r.alternatives.map Alt.intent) :=
  ⟨fun st text ctx => alts_shape_predict st text ctx,
    fun _ _ _ _ hnd h => mlCore_excludes_top hnd h⟩

theorem C6_amended_witness :
    (⟨"a", mkRat 7 10, [⟨"b", mkRat 3 10⟩]⟩ : PredictResult).intent ∉
      ((⟨"a", mkRat 7 10, [⟨"b", mkRat 3 10⟩]⟩ :
        PredictResult).alternatives.map Alt.intent) :=
  C6_amended_theorem.2 ["a", "b"] [mkRat 7 10, mkRat 3 10] none
    ⟨"a", mkRat 7 10, [⟨"b", mkRat 3 10⟩]⟩ (by decide) (by decide)

/-- C7: when no introduction pattern occurs in the message, every
`self_intro` template the code can return still contains the literal,
unfilled `{name}` slot — the catalog has no non-slotted `self_intro`
template to fall back to, contradicting the specified fallback. -/
theorem C7_theorem :
    ∀ (k : Nat) (msg : List Char),
      (∀ p ∈ nameIntroPatterns, hasSub (pyLower msg) p = false) →
      hasSub (getBaseResponse k "self_intro" msg)
        ("\x7bname\x7d".data) = true :=
  fun k msg h => getBaseResponse_unfilled k msg h

theorem C7_witness :
    hasSub (getBaseResponse 0 "self_intro" ("hello".data))
      ("\x7bname\x7d".data) = true :=
  C7_theorem 0 ("hello".data) (by decide)

/-- C8 counterexample: if the fourth pipeline statement (the Singlish
term pass) raises, the handler returns the lower-and-stripped value of
the rebound local — the whitespace-collapsed intermediate — which
differs from the lower-and-trimmed original when the input contains a
double space. -/
theorem C8_counterexample :
    processFaulty (some 3) ("aiyo  x!".data) ≠
        pyStrip (pyLower ("aiyo  x!".data)) ∧
      processFaulty (some 3) ("aiyo  x!".data) =
        pyStrip (pyLower (runStages 3 ("aiyo  x!".data))) := by
  exact ⟨by decide, by decide⟩

/-- C8 (amended): `process` never raises (the embedding is total); on a
failure in stage `i` the handler returns the lower-and-stripped value of
the intermediate produced by stages `0..i-1`, which coincides with the
lower-and-trimmed original input exactly for failures in the first two
statements. -/
theorem C8_amended_theorem :
    ∀ t, processFaulty none t = process t ∧
      (∀ i, i < 7 →
        processFaulty (some i) t = pyStrip (pyLower (runStages i t))) ∧
      (∀ i, i ≤ 1 → processFaulty (some i) t = pyStrip (pyLower t)) := by
  intro t
  refine ⟨rfl, fun i hi => by
    show (if i < 7 then pyStrip (pyLower (runStages i t)) else process t) =
      pyStrip (pyLower (runStages i t))
    rw [if_pos hi], ?_⟩
  intro i hi
  match i, hi with
  | 0, _ => rfl
  | 1, _ =>
    show pyStrip (pyLower (pyStrip (pyLower t))) = pyStrip (pyLower t)
    rw [pyLower_pyStrip, pyStrip_idem, pyLower_idem]

theorem C8_amended_witness :
    processFaulty (some 1) ("A  b".data) =
      pyStrip (pyLower ("A  b".data)) :=
  (C8_amended_theorem ("A  b".data)).2.2 1 (by omega)

/-- C9: normalization is deterministic — it is embedded as a pure
function of the input text and the fixed lexicon tables (the source uses
no random source in `process` or `extract_features`), so two runs on the
same text give identical canonical output and features. -/
theorem C9_theorem : ∀ t, normalizeText t = normalizeText t :=
  fun _ => rfl

/-- C10: the canonical output of the pipeline is already fully
lower-case: applying lower-casing to it leaves it unchanged. -/
theorem C10_theorem : ∀ t, pyLower (process t) = process t :=
  pyLower_process
